import Mathlib

set_option maxHeartbeats 1000000

/-!
Verification of the kataras/blocks template-composition engine.

Go strings are modelled as lists of characters (`Str`).  The Go `regexp`
package guarantees leftmost-first (Perl-style backtracking) matches; the
small regex interpreter below implements exactly that semantics for the
three concrete patterns used by blocks.go.  The external `html/template`
parser is modelled as an oracle `parseErr : Str → Option Str` giving the
parse error (if any) for a given source text, and the concurrent file
collector `readFiles` (fs.go) is modelled by its outcome, an
`Except Str (List (Str × Str))` value.
-/

abbrev Str := List Char

def str (s : String) : Str := s.toList

instance {α β : Type} [DecidableEq α] [DecidableEq β] : DecidableEq (Except α β) := fun a b =>
  match a, b with
  | .ok x, .ok y =>
    if h : x = y then .isTrue (by rw [h]) else .isFalse (fun hh => h (Except.ok.inj hh))
  | .error x, .error y =>
    if h : x = y then .isTrue (by rw [h]) else .isFalse (fun hh => h (Except.error.inj hh))
  | .ok _, .error _ => .isFalse (fun hh => Except.noConfusion hh)
  | .error _, .ok _ => .isFalse (fun hh => Except.noConfusion hh)

/-- hasPre p s: p is a prefix of s (Go strings.HasPrefix s p). -/
def hasPre : Str → Str → Bool
  | [], _ => true
  | _ :: _, [] => false
  | p :: ps, c :: cs => if p = c then hasPre ps cs else false

/-- hasSuf suf s: suf is a suffix of s (Go strings.HasSuffix s suf). -/
def hasSuf (suf s : Str) : Bool := hasPre suf.reverse s.reverse

/-- hasSub sub s: sub occurs as a contiguous substring of s. -/
def hasSub (sub : Str) : Str → Bool
  | [] => hasPre sub []
  | c :: cs => hasPre sub (c :: cs) || hasSub sub cs

/-- Go strings.Contains(s, sub). -/
def containsStr (s sub : Str) : Bool := hasSub sub s

/-- Go strings.TrimPrefix(s, p). -/
def trimPre (s p : Str) : Str := if hasPre p s then s.drop p.length else s

/-- Go strings.TrimSuffix(s, suf). -/
def trimSuf (s suf : Str) : Str := if hasSuf suf s then s.take (s.length - suf.length) else s

/-- Helper for pathExt: scans the reversed path, accumulating the candidate extension. -/
def pathExtRev : Str → Str → Str
  | [], _ => []
  | c :: rest, acc =>
    if c = '/' then [] else if c = '.' then '.' :: acc else pathExtRev rest (c :: acc)

/-- Go path.Ext: the suffix beginning at the final dot in the final
slash-separated element of the path; empty if there is no dot. -/
def pathExt (s : Str) : Str := pathExtRev s.reverse []

/-- blocks.go withSuffix. -/
def withSuffix (s suf : Str) : Str :=
  if s = [] then [] else if hasSuf suf s then s else s ++ suf

/-- blocks.go relDir. -/
def relDir (dir : Str) : Str :=
  if dir = str "." then []
  else if dir = [] ∨ dir = str "/" then []
  else trimPre (trimPre dir (str ".")) (str "/")

/-- blocks.go trimDir. -/
def trimDir (s dir : Str) : Str :=
  if dir = [] then s else trimPre s (withSuffix (relDir dir) (str "/"))

/-- blocks.go makeLayoutTemplateName: key = layoutName ++ tmplName. -/
def makeLayoutTemplateName (tmplName layoutName : Str) : Str := layoutName ++ tmplName

/-! Regex interpreter with Go/Perl leftmost-first backtracking semantics.
Stars are restricted to character classes, which covers the three patterns
of blocks.go; `cls neg cs` is the class [cs] (neg = false) or [^cs]
(neg = true). -/

inductive RE where
  | eps : RE
  | cls (neg : Bool) (cs : List Char) : RE
  | seq (a b : RE) : RE
  | alt (a b : RE) : RE
  | star (neg : Bool) (cs : List Char) (greedy : Bool) : RE
  | opt (a : RE) (greedy : Bool) : RE
  | grp (a : RE) : RE

/-- Literal word as a regex. -/
def lit : Str → RE
  | [] => .eps
  | c :: cs => .seq (.cls false [c]) (lit cs)

/-- Membership of a character in a list (used for classes). -/
def chMem (c : Char) : List Char → Bool
  | [] => false
  | d :: ds => if c = d then true else chMem c ds

/-- Membership in a (possibly negated) character class. -/
def clsMem (neg : Bool) (cs : List Char) (c : Char) : Bool :=
  if neg then !(chMem c cs) else chMem c cs

/-- Concatenation of the images of f (self-contained concatMap). -/
def catMap (f : α → List β) : List α → List β
  | [] => []
  | a :: as => f a ++ catMap f as

/-- All ways the pattern can match a prefix of s, in backtracking priority
order (first element = what a Perl-style engine finds first).  Each result
is the remaining suffix together with the text of capture group 1, if the
group participated. -/
def reMatch : RE → Str → List (Str × Option Str)
  | .eps, s => [(s, none)]
  | .cls _ _, [] => []
  | .cls neg cs, c :: rest => if clsMem neg cs c then [(rest, none)] else []
  | .seq a b, s =>
      catMap (fun p => (reMatch b p.1).map (fun q => (q.1, p.2.orElse (fun _ => q.2)))) (reMatch a s)
  | .alt a b, s => reMatch a s ++ reMatch b s
  | .star neg cs greedy, s =>
      let run := (s.takeWhile (clsMem neg cs)).length
      let drops := (List.range (run + 1)).map (fun k => ((s.drop k, none) : Str × Option Str))
      if greedy then drops.reverse else drops
  | .opt a greedy, s => if greedy then reMatch a s ++ [(s, none)] else (s, none) :: reMatch a s
  | .grp a, s => (reMatch a s).map (fun p => (p.1, some (s.take (s.length - p.1.length))))

/-- Leftmost-first search: the prefix before the match, the matched text,
the capture, and the suffix after the match. -/
def reFind (r : RE) : Str → Option (Str × Str × Option Str × Str)
  | [] =>
    match reMatch r [] with
    | (rest, g) :: _ => some ([], [], g, rest)
    | [] => none
  | c :: cs =>
    match reMatch r (c :: cs) with
    | (rest, g) :: _ =>
        some ([], (c :: cs).take ((c :: cs).length - rest.length), g, rest)
    | [] => (reFind r cs).map (fun x => (c :: x.1, x.2.1, x.2.2.1, x.2.2.2))

/-- Go Regexp.MatchString. -/
def reMatchString (r : RE) (s : Str) : Bool := (reFind r s).isSome

/-- Fueled worker for ReplaceAllString (all the patterns used here only
produce non-empty matches, so the fuel is never exhausted). -/
def reReplaceAllFuel (r : RE) (repl : Option Str → Str) : Nat → Str → Str
  | 0, s => s
  | fuel + 1, s =>
    match reFind r s with
    | none => s
    | some (before, matched, g, after) =>
      if matched = [] then
        match after with
        | [] => before ++ repl g
        | c :: rest => before ++ repl g ++ c :: reReplaceAllFuel r repl fuel rest
      else before ++ repl g ++ reReplaceAllFuel r repl fuel after

/-- Go Regexp.ReplaceAllString: rewrite every (non-overlapping, leftmost)
match, where the replacement may use capture group 1. -/
def reReplaceAll (r : RE) (repl : Option Str → Str) (s : Str) : Str :=
  reReplaceAllFuel r repl (s.length + 1) s

/-- Go regexp character class \s = [\t\n\f\r ]. -/
def spaceChars : List Char := [' ', '\t', '\n', '\x0c', '\r']

/-- blocks.go matchHTMLCommentsRegex: the pattern <!--[\s\S]*?--> . -/
def commentRE : RE := .seq (lit (str "<!--")) (.seq (.star true [] false) (lit (str "-->")))

/-- blocks.go removeComments. -/
def removeComments (s : Str) : Str := reReplaceAll commentRE (fun _ => []) s

/-- blocks.go yieldMatchRegex: the pattern \x7b\x7b-?\s*yield\s*(.*?)\s*-?\x7d\x7d . -/
def yieldRE : RE :=
  .seq (lit (str "\x7b\x7b"))
   (.seq (.opt (lit (str "-")) true)
    (.seq (.star false spaceChars true)
     (.seq (lit (str "yield"))
      (.seq (.star false spaceChars true)
       (.seq (.grp (.star true ['\n'] false))
        (.seq (.star false spaceChars true)
         (.seq (.opt (lit (str "-")) true) (lit (str "\x7d\x7d")))))))))

/-- blocks.go replaceYieldWithTemplateContent: rewrites every yield
directive into \x7b\x7b template "content" $1 \x7d\x7d. -/
def replaceYieldWithTemplateContent (s : Str) : Str :=
  reReplaceAll yieldRE
    (fun g => str "\x7b\x7b template \"content\" " ++ g.getD [] ++ str " \x7d\x7d") s

/-- blocks.go layoutPatternRegex: the pattern
\x7b\x7b-?\s*(template\s*"content"\s*[^\x7d]*|yield\s*[^\x7d]*)\s*-?\x7d\x7d . -/
def layoutRE : RE :=
  .seq (lit (str "\x7b\x7b"))
   (.seq (.opt (lit (str "-")) true)
    (.seq (.star false spaceChars true)
     (.seq (.grp (.alt
        (.seq (lit (str "template"))
         (.seq (.star false spaceChars true)
          (.seq (lit (str "\"content\""))
           (.seq (.star false spaceChars true) (.star true ['\x7d'] true)))))
        (.seq (lit (str "yield"))
         (.seq (.star false spaceChars true) (.star true ['\x7d'] true)))))
      (.seq (.star false spaceChars true)
       (.seq (.opt (lit (str "-")) true) (lit (str "\x7d\x7d")))))))

/-- blocks.go isLayoutTemplate. -/
def isLayoutTemplate (s : Str) : Bool := reMatchString layoutRE s

/-- blocks.go defineStart. -/
def defineStart (left : Str) : Str := left ++ str " define"

/-- blocks.go defineStartNoSpace. -/
def defineStartNoSpace (left : Str) : Str := left ++ str "define"

/-- blocks.go defineContentStart. -/
def defineContentStart (left right : Str) : Str := left ++ str "define \"content\"" ++ right

/-- blocks.go defineContentEnd. -/
def defineContentEnd (left right : Str) : Str := left ++ str "end" ++ right

/-! The engine data model.  FuncMap values (Go callables) are modelled by
numeric identifiers; maps are association lists with insertion order (a
deterministic refinement of Go's unordered maps). -/

/-- A string-keyed map, as an association list in insertion order. -/
abbrev SMap (α : Type) := List (Str × α)

/-- Insert or overwrite a key (Go map assignment). -/
def mapSet {α : Type} : SMap α → Str → α → SMap α
  | [], k, v => [(k, v)]
  | (k', v') :: rest, k, v =>
    if k' = k then (k, v) :: rest else (k', v') :: mapSet rest k v

/-- Map lookup (Go map indexing). -/
def mapLookup {α : Type} : SMap α → Str → Option α
  | [], _ => none
  | (k', v') :: rest, k => if k' = k then some v' else mapLookup rest k

/-- The keys of a map. -/
def mapKeys {α : Type} (m : SMap α) : List Str := m.map Prod.fst

/-- Merge all bindings of adds into m, later entries overwriting earlier
ones — the semantics of Go template.Funcs, whose argument map is merged
into the template's function map with overwrite. -/
def mapAddAll {α : Type} (m adds : SMap α) : SMap α :=
  adds.foldl (fun acc p => mapSet acc p.1 p.2) m

/-- A parsed template unit (html/template Template): its effective function
map and the source texts parsed into the unit, in order.  Execution itself
is external to this model. -/
structure Tmpl where
  funcs : SMap Nat
  texts : List Str
deriving DecidableEq, Repr

/-- The Blocks engine (blocks.go).  The fs field is replaced by passing the
collector's outcome to Load; the package-global builtins FuncMap
(translateFuncs(v, builtins), defined in a source file not present here) is
carried abstractly in the builtins field. -/
structure Blocks where
  rootDir : Str
  layoutDir : Str
  layoutFuncs : SMap Nat
  tmplFuncs : SMap Nat
  defaultLayoutName : Str
  extension : Str
  left : Str
  right : Str
  extensionHandler : SMap (Option (Str → Except Str Str))
  reload : Bool
  builtins : SMap Nat
  Root : Tmpl
  Templates : SMap Tmpl
  Layouts : SMap Tmpl

/-- The text parsed into the Root template by New. -/
def rootText : Str :=
  str "\x7b\x7b define \"root\" \x7d\x7d \x7b\x7b template \"content\" . \x7d\x7d \x7b\x7b end \x7d\x7d"

/-- blocks.go New: fresh engine with the default configuration.  The
blackfriday markdown converter (external) and the translated builtins map
(from the funcs source file, absent here) are parameters. -/
def NewBlocks (builtins : SMap Nat) (markdown : Str → Except Str Str) : Blocks :=
  { rootDir := []
    layoutDir := str "/layouts"
    layoutFuncs := []
    tmplFuncs := []
    defaultLayoutName := []
    extension := str ".html"
    left := str "\x7b\x7b"
    right := str "\x7d\x7d"
    extensionHandler := [(str ".md", some markdown)]
    reload := false
    builtins := builtins
    Root := { funcs := builtins, texts := [rootText] }
    Templates := []
    Layouts := [] }

/-- blocks.go Delims (the Root template inherits the delimiters at parse
time; parsing is external to the model). -/
def Blocks.Delims (v : Blocks) (left right : Str) : Blocks := { v with left := left, right := right }

/-- blocks.go DefaultLayout. -/
def Blocks.DefaultLayout (v : Blocks) (layoutName : Str) : Blocks :=
  { v with defaultLayoutName := layoutName }

/-- blocks.go LayoutDir (filepath.ToSlash is the identity on the
slash-separated paths modelled here). -/
def Blocks.LayoutDir (v : Blocks) (relToDirLayoutDir : Str) : Blocks :=
  { v with layoutDir := relToDirLayoutDir }

/-- blocks.go Extension. -/
def Blocks.Extension (v : Blocks) (ext : Str) : Blocks := { v with extension := ext }

/-- blocks.go Reload. -/
def Blocks.Reload (v : Blocks) (b : Bool) : Blocks := { v with reload := b }

/-- blocks.go Funcs: a nil engine map is replaced wholesale; otherwise the
argument is merged in and also added to the Root template. -/
def Blocks.Funcs (v : Blocks) (funcMap : SMap Nat) : Blocks :=
  if v.tmplFuncs = [] then { v with tmplFuncs := funcMap }
  else
    { v with
      tmplFuncs := mapAddAll v.tmplFuncs funcMap
      Root := { v.Root with funcs := mapAddAll v.Root.funcs funcMap } }

/-- blocks.go LayoutFuncs. -/
def Blocks.LayoutFuncs (v : Blocks) (funcMap : SMap Nat) : Blocks :=
  if v.layoutFuncs = [] then { v with layoutFuncs := funcMap }
  else { v with layoutFuncs := mapAddAll v.layoutFuncs funcMap }

/-! The load pipeline (blocks.go load). -/

/-- Classification of one collected file's contents, after any extension
preprocessing: strip comments, compute the logical name, test the layout
pattern; layouts get yields rewritten and the layout dir trimmed, contents
get the implicit "content" wrap when no define directive occurs.  Returns
(isLayout, logical name, processed text). -/
def classifyContents (v : Blocks) (filename data : Str) : Bool × Str × Str :=
  let contents := removeComments data
  let tmplName := trimSuf (trimPre (trimDir filename v.rootDir) (str "/")) v.extension
  if isLayoutTemplate contents then
    (true, trimDir tmplName v.layoutDir, replaceYieldWithTemplateContent contents)
  else
    let contents :=
      if !containsStr contents (defineStart v.left) && !containsStr contents (defineStartNoSpace v.left) then
        defineContentStart v.left v.right ++ contents ++ defineContentEnd v.left v.right
      else contents
    (false, tmplName, contents)

/-- One iteration of the collection loop of load: apply the extension
handler (its error aborts the whole load), skip foreign extensions, then
classify.  none = file skipped. -/
def classifyOne (v : Blocks) (filename data : Str) : Except Str (Option (Bool × Str × Str)) :=
  let ext := pathExt filename
  match (mapLookup v.extensionHandler ext).bind id with
  | some extParser =>
    match extParser data with
    | .error err => .error err
    | .ok d => .ok (some (classifyContents v filename d))
  | none =>
    if ext ≠ v.extension then .ok none
    else .ok (some (classifyContents v filename data))

/-- The collection loop of load, building the contentTemplates and
layoutTemplates maps. -/
def classifyAllAux (v : Blocks) :
    List (Str × Str) → SMap Str → SMap Str → Except Str (SMap Str × SMap Str)
  | [], cts, lts => .ok (cts, lts)
  | (filename, data) :: rest, cts, lts =>
    match classifyOne v filename data with
    | .error err => .error err
    | .ok none => classifyAllAux v rest cts lts
    | .ok (some (isLay, name, contents)) =>
      if isLay then classifyAllAux v rest cts (mapSet lts name contents)
      else classifyAllAux v rest (mapSet cts name contents) lts

/-- Classified (contentTemplates, layoutTemplates) for a file set. -/
def classifyAll (v : Blocks) (files : List (Str × Str)) : Except Str (SMap Str × SMap Str) :=
  classifyAllAux v files [] []

/-- The unit committed by the content pass for one content text: a clone
of Root with the engine funcs added and the text parsed into it. -/
def contentTmpl (v : Blocks) (contents : Str) : Tmpl :=
  { funcs := mapAddAll v.Root.funcs v.tmplFuncs
    texts := v.Root.texts ++ [contents] }

/-- The unit committed by the layout pass for one (layout, content) pair: a
fresh template given the builtins, then the layout-only funcs, then (before
the second parse step) the engine funcs, with both texts parsed into the
single unit. -/
def layoutTmpl (v : Blocks) (layContents cContents : Str) : Tmpl :=
  { funcs := mapAddAll (mapAddAll (mapAddAll [] v.builtins) v.layoutFuncs) v.tmplFuncs
    texts := [layContents, cContents] }

/-- The content pass of load: each content text is parsed into a clone of
Root (with the engine funcs added) and committed into Templates one by one;
the first parse error aborts, leaving the registries as already mutated. -/
def contentPass (parseErr : Str → Option Str) :
    Blocks → List (Str × Str) → Blocks × Option Str
  | v, [] => (v, none)
  | v, (tmplName, contents) :: rest =>
    match parseErr contents with
    | some err => (v, some (err ++ str ": " ++ tmplName ++ str ": " ++ contents))
    | none =>
      contentPass parseErr
        { v with Templates := mapSet v.Templates tmplName (contentTmpl v contents) } rest

/-- The inner loop of the layout pass: one layout combined with every
content template.  For each pair a fresh template is parsed from the layout
text (with builtins then layout-only funcs) and then the content text is
parsed into the same unit after adding the engine funcs. -/
def layoutInner (parseErr : Str → Option Str) (layName layContents : Str) :
    Blocks → List (Str × Str) → Blocks × Option Str
  | v, [] => (v, none)
  | v, (cName, cContents) :: rest =>
    match parseErr layContents with
    | some err => (v, some (err ++ str ": for layout: " ++ layName))
    | none =>
      match parseErr cContents with
      | some err =>
        (v, some (err ++ str ": layout: " ++ layName ++ str ": for template: " ++ cName))
      | none =>
        layoutInner parseErr layName layContents
          { v with
            Layouts := mapSet v.Layouts (makeLayoutTemplateName cName layName)
                         (layoutTmpl v layContents cContents) } rest

/-- The layout pass of load: the full cross product layouts × contents. -/
def layoutPass (parseErr : Str → Option Str) (cts : List (Str × Str)) :
    Blocks → List (Str × Str) → Blocks × Option Str
  | v, [] => (v, none)
  | v, (layName, layContents) :: rest =>
    match layoutInner parseErr layName layContents v cts with
    | (v', some err) => (v', some err)
    | (v', none) => layoutPass parseErr cts v' rest

/-- blocks.go load: collection outcome, emptiness check, classification,
content pass, layout pass.  Returns the engine state as mutated so far
together with the error, exactly like the in-place Go version. -/
def Blocks.load (parseErr : Str → Option Str)
    (collected : Except Str (List (Str × Str))) (v : Blocks) : Blocks × Option Str :=
  match collected with
  | .error err => (v, some err)
  | .ok filesMap =>
    if filesMap.length = 0 then (v, some (str "no template files found"))
    else
      match classifyAll v filesMap with
      | .error err => (v, some err)
      | .ok (contentTemplates, layoutTemplates) =>
        match contentPass parseErr v contentTemplates with
        | (v', some err) => (v', some err)
        | (v', none) => layoutPass parseErr contentTemplates v' layoutTemplates

/-- clearMap applied to both registries, as at the top of LoadWithContext. -/
def clearRegistries (v : Blocks) : Blocks := { v with Templates := [], Layouts := [] }

/-- blocks.go LoadWithContext: clears both registries, then reloads. -/
def Blocks.LoadWithContext (parseErr : Str → Option Str)
    (collected : Except Str (List (Str × Str))) (v : Blocks) : Blocks × Option Str :=
  Blocks.load parseErr collected (clearRegistries v)

/-- blocks.go Load. -/
def Blocks.Load (parseErr : Str → Option Str)
    (collected : Except Str (List (Str × Str))) (v : Blocks) : Blocks × Option Str :=
  Blocks.LoadWithContext parseErr collected v

/-! Rendering (blocks.go ExecuteTemplate and friends). -/

/-- blocks.go ErrNotExist. -/
structure ErrNotExist where
  Name : Str
deriving DecidableEq, Repr

/-- Outcome of template resolution: the not-exist error, or the composed
unit that gets executed (execution itself is external). -/
inductive ExecResult where
  | notExist (e : ErrNotExist)
  | executed (t : Tmpl)
deriving DecidableEq, Repr

/-- blocks.go getTemplateWithLayout. -/
def Blocks.getTemplateWithLayout (v : Blocks) (tmplName layoutName : Str) : Option Tmpl :=
  mapLookup v.Layouts (makeLayoutTemplateName tmplName layoutName)

/-- blocks.go executeTemplate (unexported): name normalization (extension
trimmed from both names, layout dir and leading slash trimmed from the
layout name) and registry lookup. -/
def Blocks.executeTemplate (v : Blocks) (tmplName layoutName : Str) : ExecResult :=
  if layoutName ≠ [] then
    match Blocks.getTemplateWithLayout v (trimSuf tmplName v.extension)
        (trimPre (trimPre (trimSuf layoutName v.extension) v.layoutDir) (str "/")) with
    | none =>
      .notExist ⟨trimPre (trimPre (trimSuf layoutName v.extension) v.layoutDir) (str "/")⟩
    | some t => .executed t
  else
    match mapLookup v.Templates (trimSuf tmplName v.extension) with
    | none => .notExist ⟨trimSuf tmplName v.extension⟩
    | some t => .executed t

/-- blocks.go ExecuteTemplate: reload first when enabled (a failed reload
aborts), then substitute the default layout for an empty layout name, then
resolve. -/
def Blocks.ExecuteTemplate (parseErr : Str → Option Str)
    (collected : Except Str (List (Str × Str))) (v : Blocks)
    (tmplName layoutName : Str) : Blocks × Except Str ExecResult :=
  if v.reload then
    match Blocks.Load parseErr collected v with
    | (v', some err) => (v', .error err)
    | (v', none) =>
      let layoutName := if layoutName = [] then v'.defaultLayoutName else layoutName
      (v', .ok (Blocks.executeTemplate v' tmplName layoutName))
  else
    let layoutName := if layoutName = [] then v.defaultLayoutName else layoutName
    (v, .ok (Blocks.executeTemplate v tmplName layoutName))

/-- blocks.go TemplateString: renders through the unexported
executeTemplate (no reload, no default-layout substitution), into a pooled
buffer whose string contents are returned (the buffer is external to the
model). -/
def Blocks.TemplateString (v : Blocks) (tmplName layoutName : Str) : ExecResult :=
  Blocks.executeTemplate v tmplName layoutName

/-! Concrete scenarios used by the claim theorems. -/

/-- A parse oracle under which every text parses. -/
def idParse : Str → Option Str := fun _ => none

/-- A fresh engine with empty builtins and a markdown converter that passes
contents through unchanged. -/
def baseEngine : Blocks := NewBlocks [] (fun d => .ok d)

/-- A two-file source: one content file and one layout with a yield. -/
def demoFiles : List (Str × Str) :=
  [(str "index.html", str "hi"),
   (str "layouts/main.html", str "\x7b\x7b yield \x7d\x7d")]

/-- The engine after a successful Load of demoFiles. -/
def demoLoaded : Blocks × Option Str :=
  Blocks.LoadWithContext idParse (.ok demoFiles) baseEngine

/-- demoLoaded with a configured default layout "main". -/
def demoDefault : Blocks := Blocks.DefaultLayout demoLoaded.1 (str "main")

/-- A parse oracle that rejects exactly the rewritten demo layout text. -/
def layoutBoomParse : Str → Option Str :=
  fun s =>
    if s = str "\x7b\x7b template \"content\"  \x7d\x7d" then some (str "boom") else none

/-- A fresh engine whose markdown handler always fails. -/
def mdFailEngine : Blocks := NewBlocks [] (fun _ => .error (str "md boom"))

/-! Association-map lemmas. -/

theorem mapLookup_mapSet {α : Type} (m : SMap α) (k : Str) (v : α) (q : Str) :
    mapLookup (mapSet m k v) q = if q = k then some v else mapLookup m q := by
  induction m with
  | nil =>
    by_cases h : q = k
    · subst h; simp [mapSet, mapLookup]
    · simp [mapSet, mapLookup, h, Ne.symm h]
  | cons p rest ih =>
    obtain ⟨k', v'⟩ := p
    by_cases h1 : k' = k
    · subst h1
      by_cases h2 : q = k'
      · subst h2; simp [mapSet, mapLookup]
      · simp [mapSet, mapLookup, h2, Ne.symm h2]
    · by_cases h2 : k' = q
      · subst h2
        have hq : ¬(k' = k) := h1
        simp [mapSet, mapLookup, h1, hq]
      · simp [mapSet, mapLookup, h1, h2, ih]

theorem mem_mapKeys_mapSet {α : Type} (m : SMap α) (k : Str) (v : α) (a : Str) :
    a ∈ mapKeys (mapSet m k v) ↔ a = k ∨ a ∈ mapKeys m := by
  induction m with
  | nil => simp [mapSet, mapKeys]
  | cons p rest ih =>
    obtain ⟨k', v'⟩ := p
    by_cases h1 : k' = k
    · subst h1
      have hms : mapSet ((k', v') :: rest) k' v = (k', v) :: rest := by
        simp [mapSet]
      rw [hms]
      simp only [mapKeys, List.map_cons, List.mem_cons]
      tauto
    · simp only [mapSet, if_neg h1, mapKeys, List.map_cons, List.mem_cons]
      simp only [mapKeys] at ih
      rw [ih]
      tauto

theorem mapKeys_mapSet_congr {α β : Type} (m : SMap α) (m' : SMap β) (k : Str)
    (a : α) (b : β) (h : mapKeys m = mapKeys m') :
    mapKeys (mapSet m k a) = mapKeys (mapSet m' k b) := by
  induction m generalizing m' with
  | nil =>
    cases m' with
    | nil => simp [mapSet, mapKeys]
    | cons q r => simp [mapKeys] at h
  | cons p rest ih =>
    cases m' with
    | nil => simp [mapKeys] at h
    | cons q r =>
      obtain ⟨k1, v1⟩ := p
      obtain ⟨k2, v2⟩ := q
      simp only [mapKeys, List.map_cons, List.cons.injEq] at h
      obtain ⟨h1, hr⟩ := h
      subst h1
      by_cases hk : k1 = k
      · subst hk
        simp [mapSet, mapKeys, hr]
      · simp only [mapSet, if_neg hk, mapKeys, List.map_cons]
        simp only [mapKeys] at ih
        rw [ih r hr]

/-! Shape lemmas for the two composition passes. -/

theorem layoutInner_templates (p : Str → Option Str) (ln lc : Str) (v : Blocks)
    (cs : List (Str × Str)) : (layoutInner p ln lc v cs).1.Templates = v.Templates := by
  induction cs generalizing v with
  | nil => rfl
  | cons c rest ih =>
    obtain ⟨cn, cc⟩ := c
    cases hp : p lc with
    | some e => simp [layoutInner, hp]
    | none =>
      cases hc : p cc with
      | some e => simp [layoutInner, hp, hc]
      | none =>
        simp only [layoutInner, hp, hc]
        exact ih _

theorem layoutPass_templates (p : Str → Option Str) (cts : List (Str × Str))
    (v : Blocks) (lts : List (Str × Str)) :
    (layoutPass p cts v lts).1.Templates = v.Templates := by
  induction lts generalizing v with
  | nil => rfl
  | cons l rest ih =>
    obtain ⟨ln, lc⟩ := l
    simp only [layoutPass]
    cases hres : layoutInner p ln lc v cts with
    | mk v' e =>
      cases e with
      | some err =>
        have := layoutInner_templates p ln lc v cts
        rw [hres] at this
        simpa using this
      | none =>
        have h1 := layoutInner_templates p ln lc v cts
        rw [hres] at h1
        simp only []
        rw [ih v']
        simpa using h1

theorem contentPass_layouts (p : Str → Option Str) (v : Blocks) (cs : List (Str × Str)) :
    (contentPass p v cs).1.Layouts = v.Layouts := by
  induction cs generalizing v with
  | nil => rfl
  | cons c rest ih =>
    obtain ⟨n, cc⟩ := c
    cases hp : p cc with
    | some e => simp [contentPass, hp]
    | none =>
      simp only [contentPass, hp]
      exact ih _

theorem contentPass_ok (p : Str → Option Str) (v : Blocks) (cs : List (Str × Str))
    (h : (contentPass p v cs).2 = none) :
    (contentPass p v cs).1 =
      { v with Templates := cs.foldl (fun m c => mapSet m c.1 (contentTmpl v c.2)) v.Templates } := by
  induction cs generalizing v with
  | nil => rfl
  | cons c rest ih =>
    obtain ⟨n, cc⟩ := c
    cases hp : p cc with
    | some e => simp [contentPass, hp] at h
    | none =>
      simp only [contentPass, hp] at h ⊢
      simp only [List.foldl_cons]
      exact ih _ h

theorem layoutInner_ok (p : Str → Option Str) (ln lc : Str) (v : Blocks)
    (cs : List (Str × Str)) (h : (layoutInner p ln lc v cs).2 = none) :
    (layoutInner p ln lc v cs).1 =
      { v with
        Layouts := cs.foldl
          (fun m c => mapSet m (makeLayoutTemplateName c.1 ln) (layoutTmpl v lc c.2))
          v.Layouts } := by
  induction cs generalizing v with
  | nil => rfl
  | cons c rest ih =>
    obtain ⟨cn, cc⟩ := c
    cases hp : p lc with
    | some e => simp [layoutInner, hp] at h
    | none =>
      cases hc : p cc with
      | some e => simp [layoutInner, hp, hc] at h
      | none =>
        simp only [layoutInner, hp, hc] at h ⊢
        simp only [List.foldl_cons]
        exact ih _ h

theorem layoutPass_ok (p : Str → Option Str) (cts : List (Str × Str)) (v : Blocks)
    (lts : List (Str × Str)) (h : (layoutPass p cts v lts).2 = none) :
    (layoutPass p cts v lts).1 =
      { v with
        Layouts := lts.foldl
          (fun m l => cts.foldl
            (fun m2 c => mapSet m2 (makeLayoutTemplateName c.1 l.1) (layoutTmpl v l.2 c.2)) m)
          v.Layouts } := by
  induction lts generalizing v with
  | nil => rfl
  | cons l rest ih =>
    obtain ⟨ln, lc⟩ := l
    simp only [layoutPass] at h ⊢
    cases hres : layoutInner p ln lc v cts with
    | mk v' e =>
      rw [hres] at h
      cases e with
      | some err => simp at h
      | none =>
        have hv' : v' = { v with
            Layouts := cts.foldl
              (fun m c => mapSet m (makeLayoutTemplateName c.1 ln) (layoutTmpl v lc c.2))
              v.Layouts } := by
          have := layoutInner_ok p ln lc v cts (by rw [hres])
          rw [hres] at this
          exact this
        simp only [] at h ⊢
        subst hv'
        simp only [List.foldl_cons]
        exact ih _ h

theorem contentPass_err (p : Str → Option Str) (v : Blocks) (pre : List (Str × Str))
    (n c : Str) (post : List (Str × Str)) (err : Str)
    (hpre : ∀ x ∈ pre, p x.2 = none) (hc : p c = some err) :
    contentPass p v (pre ++ (n, c) :: post) =
      ({ v with Templates := pre.foldl (fun m x => mapSet m x.1 (contentTmpl v x.2)) v.Templates },
       some (err ++ str ": " ++ n ++ str ": " ++ c)) := by
  induction pre generalizing v with
  | nil => simp [contentPass, hc]
  | cons x rest ih =>
    obtain ⟨xn, xc⟩ := x
    have hx : p xc = none := hpre (xn, xc) (by simp)
    simp only [List.cons_append, contentPass, hx, List.foldl_cons]
    exact ih _ (fun y hy => hpre y (List.mem_cons_of_mem _ hy))

theorem layoutInner_err_layout (p : Str → Option Str) (ln lc : Str) (v : Blocks)
    (cn cc : Str) (rest : List (Str × Str)) (err : Str) (h : p lc = some err) :
    layoutInner p ln lc v ((cn, cc) :: rest) =
      (v, some (err ++ str ": for layout: " ++ ln)) := by
  simp [layoutInner, h]

theorem mapLookup_foldl_mapSet {α β : Type} (g : β → Str) (h : β → α) (cs : List β)
    (m0 : SMap α) (k : Str) (t : α)
    (hlk : mapLookup (cs.foldl (fun m c => mapSet m (g c) (h c)) m0) k = some t) :
    mapLookup m0 k = some t ∨ ∃ c ∈ cs, t = h c := by
  induction cs generalizing m0 with
  | nil => exact Or.inl hlk
  | cons c rest ih =>
    simp only [List.foldl_cons] at hlk
    rcases ih _ hlk with h1 | h2
    · rw [mapLookup_mapSet] at h1
      by_cases hk : k = g c
      · rw [if_pos hk] at h1
        right
        exact ⟨c, by simp, (Option.some.inj h1).symm⟩
      · rw [if_neg hk] at h1
        exact Or.inl h1
    · obtain ⟨c', hc', ht⟩ := h2
      exact Or.inr ⟨c', List.mem_cons_of_mem _ hc', ht⟩

/-! Claim C1. -/

/-- Claim C1 counterexample: after a successful Load, a subsequent Load
that fails (here: empty file set) does NOT leave the registries as they
were before the call — the claim as stated is false: LoadWithContext
clears both registries before reloading. -/
theorem C1_counterexample :
    demoLoaded.2 = none ∧
    (Blocks.LoadWithContext idParse (.ok []) demoLoaded.1).2.isSome = true ∧
    (Blocks.LoadWithContext idParse (.ok []) demoLoaded.1).1.Templates ≠ demoLoaded.1.Templates := by
  refine ⟨by decide, by decide, by decide⟩

/-- Claim C1 (amended): a failed Load does not preserve the previous
registries; the call clears both registries on entry and rebuilds from
scratch, so a failure at collection, at the empty-file-set check, or
during preprocessing/classification returns the engine with both
registries empty. -/
theorem C1_failed_load_clears_registries :
    (∀ (v : Blocks) (p : Str → Option Str) (err : Str),
       Blocks.LoadWithContext p (.error err) v = (clearRegistries v, some err)) ∧
    (∀ (v : Blocks) (p : Str → Option Str),
       Blocks.LoadWithContext p (.ok []) v =
         (clearRegistries v, some (str "no template files found"))) ∧
    (∀ (v : Blocks) (p : Str → Option Str) (files : List (Str × Str)) (err : Str),
       classifyAll (clearRegistries v) files = .error err →
       Blocks.LoadWithContext p (.ok files) v = (clearRegistries v, some err)) ∧
    (∀ (v : Blocks), (clearRegistries v).Templates = [] ∧ (clearRegistries v).Layouts = []) := by
  refine ⟨fun v p err => rfl, fun v p => rfl, fun v p files err h => ?_, fun v => ⟨rfl, rfl⟩⟩
  cases files with
  | nil => simp [classifyAll, classifyAllAux] at h
  | cons f fs =>
    simp only [Blocks.LoadWithContext, Blocks.load, List.length_cons]
    rw [h]
    simp

/-- Witness for C1: a concrete engine whose markdown handler fails; the
failed Load returns the cleared engine. -/
theorem C1_witness :
    classifyAll (clearRegistries mdFailEngine) [(str "x.md", str "a")] = .error (str "md boom") ∧
    Blocks.LoadWithContext idParse (.ok [(str "x.md", str "a")]) mdFailEngine =
      (clearRegistries mdFailEngine, some (str "md boom")) := by
  constructor
  · rfl
  · exact C1_failed_load_clears_registries.2.2.1 mdFailEngine idParse
      [(str "x.md", str "a")] (str "md boom") (by rfl)

/-! Claim C2. -/

/-- Claim C2 counterexample: a Load that fails during the layout pass
(the layout text does not parse) returns with Templates still holding the
content unit committed by the content pass — the registries are NOT empty
on every failing Load, refuting the claim as stated. -/
theorem C2_counterexample :
    (Blocks.LoadWithContext layoutBoomParse (.ok demoFiles) baseEngine).2 =
      some (str "boom: for layout: main") ∧
    (Blocks.LoadWithContext layoutBoomParse (.ok demoFiles) baseEngine).1.Templates ≠ [] := by
  refine ⟨by decide, by decide⟩

/-- Claim C2 (amended): a Load failing before the composition passes
leaves both registries empty, but a parse failure during composition
leaves the registries holding exactly the units committed before the
failing step: the content pass commits one template per successfully
parsed content text until the first failure, and the layout pass never
removes anything from Templates; a layout text that fails to parse aborts
the inner pass immediately, keeping the engine state reached so far. -/
theorem C2_partial_registries_on_composition_failure :
    (∀ (p : Str → Option Str) (v : Blocks) (pre : List (Str × Str)) (n c : Str)
       (post : List (Str × Str)) (err : Str),
       (∀ x ∈ pre, p x.2 = none) → p c = some err →
       contentPass p v (pre ++ (n, c) :: post) =
         ({ v with Templates := pre.foldl (fun m x => mapSet m x.1 (contentTmpl v x.2)) v.Templates },
          some (err ++ str ": " ++ n ++ str ": " ++ c))) ∧
    (∀ (p : Str → Option Str) (cts : List (Str × Str)) (v : Blocks) (lts : List (Str × Str)),
       (layoutPass p cts v lts).1.Templates = v.Templates) ∧
    (∀ (p : Str → Option Str) (ln lc : Str) (v : Blocks) (cn cc : Str)
       (rest : List (Str × Str)) (err : Str),
       p lc = some err →
       layoutInner p ln lc v ((cn, cc) :: rest) =
         (v, some (err ++ str ": for layout: " ++ ln))) :=
  ⟨fun p v pre n c post err hpre hc => contentPass_err p v pre n c post err hpre hc,
   fun p cts v lts => layoutPass_templates p cts v lts,
   fun p ln lc v cn cc rest err h => layoutInner_err_layout p ln lc v cn cc rest err h⟩

/-- Witness for C2: the amended statement applied at a concrete failing
content text and a concrete failing layout. -/
theorem C2_witness :
    layoutBoomParse (str "\x7b\x7b template \"content\"  \x7d\x7d") = some (str "boom") ∧
    contentPass layoutBoomParse baseEngine
        [(str "a", str "\x7b\x7b template \"content\"  \x7d\x7d")] =
      (baseEngine,
       some (str "boom" ++ str ": " ++ str "a" ++ str ": " ++
         str "\x7b\x7b template \"content\"  \x7d\x7d")) ∧
    layoutInner layoutBoomParse (str "main") (str "\x7b\x7b template \"content\"  \x7d\x7d")
        baseEngine [(str "index", str "hi")] =
      (baseEngine, some (str "boom" ++ str ": for layout: " ++ str "main")) := by
  refine ⟨by rfl, ?_, ?_⟩
  · exact C2_partial_registries_on_composition_failure.1 layoutBoomParse baseEngine []
      (str "a") (str "\x7b\x7b template \"content\"  \x7d\x7d") [] (str "boom")
      (fun x hx => absurd hx (List.not_mem_nil x)) (by rfl)
  · exact C2_partial_registries_on_composition_failure.2.2 layoutBoomParse (str "main")
      (str "\x7b\x7b template \"content\"  \x7d\x7d") baseEngine (str "index") (str "hi") []
      (str "boom") (by rfl)

/-! Claim C6. -/

/-- Claim C6 counterexample: with a configured default layout "main",
requesting the absent content name "missing" yields a NotExist error whose
reported name is "main" (the layout name), not "missing" as claimed. -/
theorem C6_counterexample :
    (Blocks.ExecuteTemplate idParse (.ok demoFiles) demoDefault (str "missing") []).2 =
      .ok (.notExist ⟨str "main"⟩) ∧
    (str "main" : Str) ≠ str "missing" := by
  refine ⟨by decide, by decide⟩

/-- Claim C6 (amended): when the resolved key is absent, executeTemplate
returns NotExist carrying the (normalized) layout name whenever a
non-empty layout name is in effect — even if the missing component is the
content — and carrying the (extension-trimmed) content name only when no
layout is in effect. -/
theorem C6_notExist_name :
    (∀ (v : Blocks) (n l : Str), l ≠ [] →
       Blocks.getTemplateWithLayout v (trimSuf n v.extension)
           (trimPre (trimPre (trimSuf l v.extension) v.layoutDir) (str "/")) = none →
       Blocks.executeTemplate v n l =
         .notExist ⟨trimPre (trimPre (trimSuf l v.extension) v.layoutDir) (str "/")⟩) ∧
    (∀ (v : Blocks) (n : Str),
       mapLookup v.Templates (trimSuf n v.extension) = none →
       Blocks.executeTemplate v n [] = .notExist ⟨trimSuf n v.extension⟩) := by
  constructor
  · intro v n l hl hlk
    simp only [Blocks.executeTemplate, if_pos hl, hlk]
  · intro v n hlk
    simp only [Blocks.executeTemplate, ne_eq, not_true_eq_false, if_neg, hlk]
    simp [hlk]

/-- Witness for C6: the amended statement at the demo engine with default
layout "main" and the absent content "missing". -/
theorem C6_witness :
    ((str "main" : Str) ≠ []) ∧
    Blocks.getTemplateWithLayout demoDefault
        (trimSuf (str "missing") demoDefault.extension)
        (trimPre (trimPre (trimSuf (str "main") demoDefault.extension) demoDefault.layoutDir)
          (str "/")) = none ∧
    Blocks.executeTemplate demoDefault (str "missing") (str "main") =
      .notExist ⟨trimPre (trimPre (trimSuf (str "main") demoDefault.extension)
        demoDefault.layoutDir) (str "/")⟩ := by
  refine ⟨by decide, by decide, ?_⟩
  exact C6_notExist_name.1 demoDefault (str "missing") (str "main") (by decide) (by decide)

/-! Claim C7. -/

/-- Claim C7 counterexample: with a configured default layout, rendering
content "index" with an empty layout name resolves differently through
ExecuteTemplate (which substitutes the default layout) and TemplateString
(which does not) — they do not resolve to the same composed template. -/
theorem C7_counterexample :
    (Blocks.ExecuteTemplate idParse (.ok demoFiles) demoDefault (str "index") []).2 ≠
      .ok (Blocks.TemplateString demoDefault (str "index") []) := by
  decide

/-- Claim C7 (amended): TemplateString performs exactly the resolution of
the shared unexported executeTemplate (same extension and layout-dir
normalization) and never reloads, but — unlike ExecuteTemplate — it does
not substitute the configured default layout for an empty layout name:
with auto-reload off the two surfaces agree whenever the layout name is
non-empty, or when no default layout is configured; with an empty layout
name ExecuteTemplate renders through the default layout instead. -/
theorem C7_TemplateString_resolution :
    (∀ (v : Blocks) (n l : Str),
       Blocks.TemplateString v n l = Blocks.executeTemplate v n l) ∧
    (∀ (p : Str → Option Str) (c : Except Str (List (Str × Str))) (v : Blocks) (n l : Str),
       v.reload = false → l ≠ [] →
       Blocks.ExecuteTemplate p c v n l = (v, .ok (Blocks.TemplateString v n l))) ∧
    (∀ (p : Str → Option Str) (c : Except Str (List (Str × Str))) (v : Blocks) (n : Str),
       v.reload = false → v.defaultLayoutName = [] →
       Blocks.ExecuteTemplate p c v n [] = (v, .ok (Blocks.TemplateString v n []))) ∧
    (∀ (p : Str → Option Str) (c : Except Str (List (Str × Str))) (v : Blocks) (n : Str),
       v.reload = false →
       Blocks.ExecuteTemplate p c v n [] =
         (v, .ok (Blocks.executeTemplate v n v.defaultLayoutName))) := by
  refine ⟨fun v n l => rfl, fun p c v n l hre hl => ?_, fun p c v n hre hd => ?_,
    fun p c v n hre => ?_⟩
  · simp [Blocks.ExecuteTemplate, hre, if_neg hl, Blocks.TemplateString]
  · simp [Blocks.ExecuteTemplate, hre, hd, Blocks.TemplateString]
  · simp [Blocks.ExecuteTemplate, hre]

/-- Witness for C7: the amended statement applied at the demo engine. -/
theorem C7_witness :
    demoDefault.reload = false ∧ ((str "main" : Str) ≠ []) ∧
    Blocks.ExecuteTemplate idParse (.ok demoFiles) demoDefault (str "index") (str "main") =
      (demoDefault, .ok (Blocks.TemplateString demoDefault (str "index") (str "main"))) := by
  refine ⟨by decide, by decide, ?_⟩
  exact C7_TemplateString_resolution.2.1 idParse (.ok demoFiles) demoDefault
    (str "index") (str "main") (by decide) (by decide)

/-! Claim C9. -/

/-- An engine with a name collision between the engine-level and the
layout-only function maps: "f" is the engine-level callable 1 and the
layout-only callable 2. -/
def tierEngine : Blocks :=
  { baseEngine with tmplFuncs := [(str "f", 1)], layoutFuncs := [(str "f", 2)] }

/-- tierEngine after a successful Load of demoFiles. -/
def tierLoaded : Blocks × Option Str :=
  Blocks.LoadWithContext idParse (.ok demoFiles) tierEngine

/-- Claim C9 counterexample: in the composed layout template, the name "f"
— present in both the engine-level and the layout-only map — resolves to
the engine-level callable (1), not the layout-only one (2): the engine
funcs are merged after the layout funcs, so the engine tier wins. -/
theorem C9_counterexample :
    (mapLookup tierLoaded.1.Layouts (str "mainindex")).bind
        (fun t => mapLookup t.funcs (str "f")) = some 1 ∧
    (1 : Nat) ≠ 2 := by
  refine ⟨by decide, by decide⟩

/-- Claim C9 (amended): the effective function map of every layout-composed
unit is built by merging, in order, the translated builtins, then the
layout-only map, then the engine-level map — later merges overwrite, so on
a collision the engine-level definition (not the layout-only one) is
effective. -/
theorem C9_layout_funcs_merge_order :
    (∀ (p : Str → Option Str) (ln lc : Str) (v : Blocks) (cs : List (Str × Str))
       (k : Str) (t : Tmpl),
       (layoutInner p ln lc v cs).2 = none →
       mapLookup (layoutInner p ln lc v cs).1.Layouts k = some t →
       mapLookup v.Layouts k = some t ∨
         t.funcs = mapAddAll (mapAddAll (mapAddAll [] v.builtins) v.layoutFuncs) v.tmplFuncs) ∧
    (∀ (m : SMap Nat) (k : Str) (a b : Nat),
       mapLookup (mapSet (mapSet m k b) k a) k = some a) := by
  constructor
  · intro p ln lc v cs k t hok hlk
    rw [layoutInner_ok p ln lc v cs hok] at hlk
    simp only [] at hlk
    rcases mapLookup_foldl_mapSet (fun c => makeLayoutTemplateName c.1 ln)
        (fun c => layoutTmpl v lc c.2) cs v.Layouts k t hlk with h1 | h2
    · exact Or.inl h1
    · obtain ⟨c, _, ht⟩ := h2
      exact Or.inr (by rw [ht]; rfl)
  · intro m k a b
    rw [mapLookup_mapSet]
    simp

/-! Claim C5. -/

/-- Claim C5 counterexample: a content file whose only definition names a
block other than "content" contains a define directive, so the implicit
wrap is skipped; the stored text never even mentions "content", so the
resulting content unit does not define a "content" block — refuting the
"in all cases" part of the claim. -/
theorem C5_counterexample :
    classifyContents baseEngine (str "a.html")
        (str "\x7b\x7b define \"sidebar\" \x7d\x7dx\x7b\x7b end \x7d\x7d") =
      (false, str "a", str "\x7b\x7b define \"sidebar\" \x7d\x7dx\x7b\x7b end \x7d\x7d") ∧
    containsStr (str "\x7b\x7b define \"sidebar\" \x7d\x7dx\x7b\x7b end \x7d\x7d")
        (str "content") = false := by
  refine ⟨by decide, by decide⟩

/-- Claim C5 (amended): a file classified as Content is wrapped in an
implicit "content" block definition if and only if its comment-stripped
text contains neither the spaced nor the unspaced define directive (for
the configured left delimiter); when it does contain a define directive
the text is stored unchanged, even when its definitions name only blocks
other than "content" — such a unit defines no "content" block. -/
theorem C5_content_wrap :
    ∀ (v : Blocks) (filename data : Str),
      isLayoutTemplate (removeComments data) = false →
      (containsStr (removeComments data) (defineStart v.left) = false ∧
       containsStr (removeComments data) (defineStartNoSpace v.left) = false →
       classifyContents v filename data =
         (false, trimSuf (trimPre (trimDir filename v.rootDir) (str "/")) v.extension,
          defineContentStart v.left v.right ++ removeComments data ++
            defineContentEnd v.left v.right)) ∧
      (containsStr (removeComments data) (defineStart v.left) = true ∨
       containsStr (removeComments data) (defineStartNoSpace v.left) = true →
       classifyContents v filename data =
         (false, trimSuf (trimPre (trimDir filename v.rootDir) (str "/")) v.extension,
          removeComments data)) := by
  intro v filename data hlay
  constructor
  · intro h
    simp [classifyContents, hlay, h.1, h.2]
  · intro h
    rcases h with h | h <;> simp [classifyContents, hlay, h]

/-- Witness for C5: both cases of the amended statement at concrete
inputs — a bare fragment gets wrapped, a sidebar-only file is stored
unchanged. -/
theorem C5_witness :
    isLayoutTemplate (removeComments (str "hi")) = false ∧
    classifyContents baseEngine (str "index.html") (str "hi") =
      (false, trimSuf (trimPre (trimDir (str "index.html") baseEngine.rootDir) (str "/"))
        baseEngine.extension,
       defineContentStart baseEngine.left baseEngine.right ++ removeComments (str "hi") ++
         defineContentEnd baseEngine.left baseEngine.right) ∧
    classifyContents baseEngine (str "a.html")
        (str "\x7b\x7b define \"x\" \x7d\x7dy\x7b\x7b end \x7d\x7d") =
      (false, trimSuf (trimPre (trimDir (str "a.html") baseEngine.rootDir) (str "/"))
        baseEngine.extension,
       removeComments (str "\x7b\x7b define \"x\" \x7d\x7dy\x7b\x7b end \x7d\x7d")) := by
  refine ⟨by decide, ?_, ?_⟩
  · exact (C5_content_wrap baseEngine (str "index.html") (str "hi") (by decide)).1
      ⟨by decide, by decide⟩
  · exact (C5_content_wrap baseEngine (str "a.html")
      (str "\x7b\x7b define \"x\" \x7d\x7dy\x7b\x7b end \x7d\x7d") (by decide)).2
      (Or.inl (by decide))

/-! Claim C4. -/

/-- Claim C4 counterexample: with configured delimiters "[[", "]]", a file
whose text is a yield directive written in those delimiters is classified
as Content (and wrapped), while a file using the default-brace yield is
classified Layout — classification matches the fixed default delimiters,
not the configured ones. -/
theorem C4_counterexample :
    isLayoutTemplate (str "[[ yield ]]") = false ∧
    classifyAll (Blocks.Delims baseEngine (str "[[") (str "]]"))
        [(str "a.html", str "[[ yield ]]")] =
      .ok ([(str "a", str "[[define \"content\"]][[ yield ]][[end]]")], []) ∧
    classifyAll (Blocks.Delims baseEngine (str "[[") (str "]]"))
        [(str "b.html", str "\x7b\x7b yield \x7d\x7d")] =
      .ok ([], [(str "b", str "\x7b\x7b template \"content\"  \x7d\x7d")]) := by
  refine ⟨by decide, by decide, by decide⟩

theorem classifyOne_delims (v : Blocks) (l r l' r' : Str) (fn data : Str) :
    (∃ err, classifyOne (Blocks.Delims v l r) fn data = .error err ∧
            classifyOne (Blocks.Delims v l' r') fn data = .error err) ∨
    (classifyOne (Blocks.Delims v l r) fn data = .ok none ∧
     classifyOne (Blocks.Delims v l' r') fn data = .ok none) ∨
    (∃ name c c', classifyOne (Blocks.Delims v l r) fn data = .ok (some (false, name, c)) ∧
                  classifyOne (Blocks.Delims v l' r') fn data = .ok (some (false, name, c'))) ∨
    (∃ name c, classifyOne (Blocks.Delims v l r) fn data = .ok (some (true, name, c)) ∧
               classifyOne (Blocks.Delims v l' r') fn data = .ok (some (true, name, c))) := by
  have hcc : ∀ (d : Str),
      (∃ name c c', classifyContents (Blocks.Delims v l r) fn d = (false, name, c) ∧
                    classifyContents (Blocks.Delims v l' r') fn d = (false, name, c')) ∨
      (∃ name c, classifyContents (Blocks.Delims v l r) fn d = (true, name, c) ∧
                 classifyContents (Blocks.Delims v l' r') fn d = (true, name, c)) := by
    intro d
    cases hlay : isLayoutTemplate (removeComments d) with
    | true =>
      right
      exact ⟨trimDir (trimSuf (trimPre (trimDir fn v.rootDir) (str "/")) v.extension) v.layoutDir,
             replaceYieldWithTemplateContent (removeComments d),
             by simp [classifyContents, Blocks.Delims, hlay],
             by simp [classifyContents, Blocks.Delims, hlay]⟩
    | false =>
      left
      exact ⟨trimSuf (trimPre (trimDir fn v.rootDir) (str "/")) v.extension,
             (if !containsStr (removeComments d) (defineStart l) &&
                 !containsStr (removeComments d) (defineStartNoSpace l) then
                defineContentStart l r ++ removeComments d ++ defineContentEnd l r
              else removeComments d),
             (if !containsStr (removeComments d) (defineStart l') &&
                 !containsStr (removeComments d) (defineStartNoSpace l') then
                defineContentStart l' r' ++ removeComments d ++ defineContentEnd l' r'
              else removeComments d),
             by simp [classifyContents, Blocks.Delims, hlay],
             by simp [classifyContents, Blocks.Delims, hlay]⟩
  have hE1 : (Blocks.Delims v l r).extensionHandler = v.extensionHandler := rfl
  have hE2 : (Blocks.Delims v l' r').extensionHandler = v.extensionHandler := rfl
  have hX1 : (Blocks.Delims v l r).extension = v.extension := rfl
  have hX2 : (Blocks.Delims v l' r').extension = v.extension := rfl
  simp only [classifyOne, hE1, hE2, hX1, hX2]
  cases hh : (mapLookup v.extensionHandler (pathExt fn)).bind id with
  | some extParser =>
    cases hp : extParser data with
    | error err => exact Or.inl ⟨err, by simp [hp], by simp [hp]⟩
    | ok d =>
      rcases hcc d with ⟨name, c, c', h1, h2⟩ | ⟨name, c, h1, h2⟩
      · exact Or.inr (Or.inr (Or.inl ⟨name, c, c', by simp [hp, h1], by simp [hp, h2]⟩))
      · exact Or.inr (Or.inr (Or.inr ⟨name, c, by simp [hp, h1], by simp [hp, h2]⟩))
  | none =>
    by_cases hext : pathExt fn ≠ v.extension
    · exact Or.inr (Or.inl ⟨by simp [hext], by simp [hext]⟩)
    · rcases hcc data with ⟨name, c, c', h1, h2⟩ | ⟨name, c, h1, h2⟩
      · exact Or.inr (Or.inr (Or.inl ⟨name, c, c', by simp [hext, h1], by simp [hext, h2]⟩))
      · exact Or.inr (Or.inr (Or.inr ⟨name, c, by simp [hext, h1], by simp [hext, h2]⟩))

theorem classifyAllAux_delims (v : Blocks) (l r l' r' : Str) :
    ∀ (files : List (Str × Str)) (cts cts' lts : SMap Str),
      mapKeys cts = mapKeys cts' →
      (∀ err, classifyAllAux (Blocks.Delims v l r) files cts lts = .error err ↔
              classifyAllAux (Blocks.Delims v l' r') files cts' lts = .error err) ∧
      (∀ c1 l1 c2 l2,
         classifyAllAux (Blocks.Delims v l r) files cts lts = .ok (c1, l1) →
         classifyAllAux (Blocks.Delims v l' r') files cts' lts = .ok (c2, l2) →
         mapKeys c1 = mapKeys c2 ∧ l1 = l2) := by
  intro files
  induction files with
  | nil =>
    intro cts cts' lts hk
    constructor
    · intro err
      simp [classifyAllAux]
    · intro c1 l1 c2 l2 h1 h2
      simp only [classifyAllAux, Except.ok.injEq] at h1 h2
      cases h1
      cases h2
      exact ⟨hk, rfl⟩
  | cons f rest ih =>
    intro cts cts' lts hk
    obtain ⟨fn, data⟩ := f
    rcases classifyOne_delims v l r l' r' fn data with
      ⟨err, hA, hB⟩ | ⟨hA, hB⟩ | ⟨name, c, c', hA, hB⟩ | ⟨name, c, hA, hB⟩
    · constructor
      · intro e
        simp [classifyAllAux, hA, hB]
      · intro c1 l1 c2 l2 h1 h2
        simp [classifyAllAux, hA] at h1
    · constructor
      · intro e
        simp only [classifyAllAux, hA, hB]
        exact (ih cts cts' lts hk).1 e
      · intro c1 l1 c2 l2 h1 h2
        simp only [classifyAllAux, hA, hB] at h1 h2
        exact (ih cts cts' lts hk).2 c1 l1 c2 l2 h1 h2
    · have hk' := mapKeys_mapSet_congr cts cts' name c c' hk
      constructor
      · intro e
        simp only [classifyAllAux, hA, hB, if_neg Bool.false_ne_true]
        exact (ih _ _ lts hk').1 e
      · intro c1 l1 c2 l2 h1 h2
        simp only [classifyAllAux, hA, hB, if_neg Bool.false_ne_true] at h1 h2
        exact (ih _ _ lts hk').2 c1 l1 c2 l2 h1 h2
    · constructor
      · intro e
        simp only [classifyAllAux, hA, hB, if_pos rfl]
        exact (ih cts cts' (mapSet lts name c) hk).1 e
      · intro c1 l1 c2 l2 h1 h2
        simp only [classifyAllAux, hA, hB, if_pos rfl] at h1 h2
        exact (ih cts cts' (mapSet lts name c) hk).2 c1 l1 c2 l2 h1 h2

/-- Claim C4 (amended): which files are classified as Layout, their logical
names and their processed texts are all independent of the configured
delimiters — classification matches the fixed default-brace patterns, so
changing Delims never changes the Layout/Content partition (only the
implicit-wrap text of content units, whose key set is still the same). -/
theorem C4_classification_ignores_delims :
    ∀ (v : Blocks) (l r l' r' : Str) (files : List (Str × Str)),
      (∀ err, classifyAll (Blocks.Delims v l r) files = .error err ↔
              classifyAll (Blocks.Delims v l' r') files = .error err) ∧
      (∀ c1 l1 c2 l2,
         classifyAll (Blocks.Delims v l r) files = .ok (c1, l1) →
         classifyAll (Blocks.Delims v l' r') files = .ok (c2, l2) →
         mapKeys c1 = mapKeys c2 ∧ l1 = l2) :=
  fun v l r l' r' files => classifyAllAux_delims v l r l' r' files [] [] [] rfl

/-- Witness for C4: the amended statement at the concrete bracket-delimiter
engine — same layout map, same content key set as with default delims. -/
theorem C4_witness :
    classifyAll (Blocks.Delims baseEngine (str "[[") (str "]]"))
        [(str "a.html", str "[[ yield ]]"), (str "layouts/m.html", str "\x7b\x7byield\x7d\x7d")] =
      .ok ([(str "a", str "[[define \"content\"]][[ yield ]][[end]]")],
           [(str "m", str "\x7b\x7b template \"content\"  \x7d\x7d")]) ∧
    classifyAll (Blocks.Delims baseEngine (str "\x7b\x7b") (str "\x7d\x7d"))
        [(str "a.html", str "[[ yield ]]"), (str "layouts/m.html", str "\x7b\x7byield\x7d\x7d")] =
      .ok ([(str "a", str "\x7b\x7bdefine \"content\"\x7d\x7d[[ yield ]]\x7b\x7bend\x7d\x7d")],
           [(str "m", str "\x7b\x7b template \"content\"  \x7d\x7d")]) ∧
    (mapKeys [(str "a", str "[[define \"content\"]][[ yield ]][[end]]")] =
       mapKeys [(str "a", str "\x7b\x7bdefine \"content\"\x7d\x7d[[ yield ]]\x7b\x7bend\x7d\x7d")] ∧
     [(str "m", str "\x7b\x7b template \"content\"  \x7d\x7d")] =
       [(str "m", str "\x7b\x7b template \"content\"  \x7d\x7d")]) := by
  refine ⟨by decide, by decide, ?_⟩
  exact (C4_classification_ignores_delims baseEngine (str "[[") (str "]]")
      (str "\x7b\x7b") (str "\x7d\x7d")
      [(str "a.html", str "[[ yield ]]"), (str "layouts/m.html", str "\x7b\x7byield\x7d\x7d")]).2
    _ _ _ _ (by decide) (by decide)

/-! Claim C3. -/

theorem mem_mapKeys_inner_fold (v1 : Blocks) (ln lc : Str) (cts : List (Str × Str))
    (m0 : SMap Tmpl) (k : Str) :
    k ∈ mapKeys (cts.foldl
        (fun m2 c => mapSet m2 (makeLayoutTemplateName c.1 ln) (layoutTmpl v1 lc c.2)) m0) ↔
      k ∈ mapKeys m0 ∨ ∃ c ∈ cts, k = makeLayoutTemplateName c.1 ln := by
  induction cts generalizing m0 with
  | nil => simp
  | cons c rest ih =>
    simp only [List.foldl_cons]
    rw [ih, mem_mapKeys_mapSet]
    simp only [List.mem_cons]
    constructor
    · rintro ((h | h) | ⟨c', hc', hk⟩)
      · exact Or.inr ⟨c, Or.inl rfl, h⟩
      · exact Or.inl h
      · exact Or.inr ⟨c', Or.inr hc', hk⟩
    · rintro (h | ⟨c', (rfl | hc'), hk⟩)
      · exact Or.inl (Or.inr h)
      · exact Or.inl (Or.inl hk)
      · exact Or.inr ⟨c', hc', hk⟩

theorem mem_mapKeys_layout_fold (v1 : Blocks) (cts lts : List (Str × Str))
    (m0 : SMap Tmpl) (k : Str) :
    k ∈ mapKeys (lts.foldl
        (fun m l => cts.foldl
          (fun m2 c => mapSet m2 (makeLayoutTemplateName c.1 l.1) (layoutTmpl v1 l.2 c.2)) m)
        m0) ↔
      k ∈ mapKeys m0 ∨ ∃ l ∈ lts, ∃ c ∈ cts, k = makeLayoutTemplateName c.1 l.1 := by
  induction lts generalizing m0 with
  | nil => simp
  | cons l rest ih =>
    simp only [List.foldl_cons]
    rw [ih, mem_mapKeys_inner_fold]
    simp only [List.mem_cons]
    constructor
    · rintro ((h | ⟨c, hc, hk⟩) | ⟨l', hl', c, hc, hk⟩)
      · exact Or.inl h
      · exact Or.inr ⟨l, Or.inl rfl, c, hc, hk⟩
      · exact Or.inr ⟨l', Or.inr hl', c, hc, hk⟩
    · rintro (h | ⟨l', (rfl | hl'), c, hc, hk⟩)
      · exact Or.inl (Or.inl h)
      · exact Or.inl (Or.inr ⟨c, hc, hk⟩)
      · exact Or.inr ⟨l', hl', c, hc, hk⟩

/-- Claim C3 (confirmed): after a successful Load, the Layouts registry
key set is exactly the full cross product — a key is present iff it is the
concatenation layoutName ++ contentName for some classified layout and
some classified content of that Load's file set. -/
theorem C3_layouts_cross_product :
    ∀ (v : Blocks) (p : Str → Option Str) (files : List (Str × Str)) (cts lts : SMap Str),
      (Blocks.LoadWithContext p (.ok files) v).2 = none →
      classifyAll (clearRegistries v) files = .ok (cts, lts) →
      ∀ (k : Str),
        k ∈ mapKeys (Blocks.LoadWithContext p (.ok files) v).1.Layouts ↔
          ∃ l ∈ mapKeys lts, ∃ c ∈ mapKeys cts, k = makeLayoutTemplateName c l := by
  intro v p files cts lts hok hcls k
  cases files with
  | nil =>
    exfalso
    simp [Blocks.LoadWithContext, Blocks.load] at hok
  | cons f fs =>
    have hstep : Blocks.LoadWithContext p (.ok (f :: fs)) v =
        (match contentPass p (clearRegistries v) cts with
         | (v', some err) => (v', some err)
         | (v', none) => layoutPass p cts v' lts) := by
      simp only [Blocks.LoadWithContext, Blocks.load, List.length_cons]
      rw [if_neg (Nat.succ_ne_zero _), hcls]
    rw [hstep] at hok ⊢
    cases hcp : contentPass p (clearRegistries v) cts with
    | mk v1 e1 =>
      rw [hcp] at hok
      cases e1 with
      | some err => exact Option.noConfusion hok
      | none =>
        have hok2 : (layoutPass p cts v1 lts).2 = none := hok
        have hL1 : v1.Layouts = [] := by
          have hcl := contentPass_layouts p (clearRegistries v) cts
          rw [hcp] at hcl
          exact hcl
        show k ∈ mapKeys (layoutPass p cts v1 lts).1.Layouts ↔ _
        rw [layoutPass_ok p cts v1 lts hok2]
        show k ∈ mapKeys (lts.foldl _ v1.Layouts) ↔ _
        rw [hL1, mem_mapKeys_layout_fold]
        simp only [mapKeys, List.map_nil, List.not_mem_nil, false_or]
        constructor
        · rintro ⟨l, hl, c, hc, rfl⟩
          exact ⟨l.1, List.mem_map_of_mem _ hl, c.1, List.mem_map_of_mem _ hc, rfl⟩
        · rintro ⟨ln, hln, cn, hcn, rfl⟩
          obtain ⟨l, hl, rfl⟩ := List.mem_map.mp hln
          obtain ⟨c, hc, rfl⟩ := List.mem_map.mp hcn
          exact ⟨l, hl, c, hc, rfl⟩

/-- Witness for C3: the cross-product equivalence at the demo engine,
whose classified set is one layout "main" and one content "index". -/
theorem C3_witness :
    (Blocks.LoadWithContext idParse (.ok demoFiles) baseEngine).2 = none ∧
    classifyAll (clearRegistries baseEngine) demoFiles =
      .ok ([(str "index", str "\x7b\x7bdefine \"content\"\x7d\x7dhi\x7b\x7bend\x7d\x7d")],
           [(str "main", str "\x7b\x7b template \"content\"  \x7d\x7d")]) ∧
    (∀ k, k ∈ mapKeys (Blocks.LoadWithContext idParse (.ok demoFiles) baseEngine).1.Layouts ↔
       ∃ l ∈ mapKeys [(str "main", str "\x7b\x7b template \"content\"  \x7d\x7d")],
       ∃ c ∈ mapKeys [(str "index", str "\x7b\x7bdefine \"content\"\x7d\x7dhi\x7b\x7bend\x7d\x7d")],
         k = makeLayoutTemplateName c l) := by
  refine ⟨by decide, by decide, ?_⟩
  exact C3_layouts_cross_product baseEngine idParse demoFiles _ _ (by decide) (by decide)

/-- Witness for C9: the layout-funcs shape applied at a concrete
one-layout, one-content inner pass over the base engine. -/
theorem C9_witness :
    (layoutInner idParse (str "main") (str "lay") baseEngine [(str "index", str "hi")]).2 = none ∧
    mapLookup (layoutInner idParse (str "main") (str "lay") baseEngine
        [(str "index", str "hi")]).1.Layouts (str "mainindex") =
      some ⟨[], [str "lay", str "hi"]⟩ ∧
    (mapLookup baseEngine.Layouts (str "mainindex") = some ⟨[], [str "lay", str "hi"]⟩ ∨
     (⟨[], [str "lay", str "hi"]⟩ : Tmpl).funcs =
       mapAddAll (mapAddAll (mapAddAll [] baseEngine.builtins) baseEngine.layoutFuncs)
         baseEngine.tmplFuncs) := by
  refine ⟨by decide, by decide, ?_⟩
  exact C9_layout_funcs_merge_order.1 idParse (str "main") (str "lay") baseEngine
    [(str "index", str "hi")] (str "mainindex") ⟨[], [str "lay", str "hi"]⟩
    (by decide) (by decide)

/-! General facts about the regex interpreter, used for claim C10. -/

theorem mem_catMap {α β : Type} (f : α → List β) (l : List α) (x : β) :
    x ∈ catMap f l ↔ ∃ a ∈ l, x ∈ f a := by
  induction l with
  | nil => simp [catMap]
  | cons a as ih =>
    simp only [catMap, List.mem_append, ih, List.mem_cons]
    constructor
    · rintro (h | ⟨a', ha', hx⟩)
      · exact ⟨a, Or.inl rfl, h⟩
      · exact ⟨a', Or.inr ha', hx⟩
    · rintro ⟨a', (rfl | ha'), hx⟩
      · exact Or.inl hx
      · exact Or.inr ⟨a', ha', hx⟩

theorem reMatch_suffix : ∀ (r : RE) (s : Str) (p : Str × Option Str),
    p ∈ reMatch r s → p.1 <:+ s := by
  intro r
  induction r with
  | eps =>
    intro s p hp
    simp only [reMatch, List.mem_singleton] at hp
    subst hp
    exact List.suffix_refl s
  | cls neg cs =>
    intro s p hp
    cases s with
    | nil => simp [reMatch] at hp
    | cons c rest =>
      simp only [reMatch] at hp
      by_cases h : clsMem neg cs c
      · rw [if_pos h] at hp
        simp only [List.mem_singleton] at hp
        subst hp
        exact List.suffix_cons c rest
      · rw [if_neg h] at hp
        simp at hp
  | seq a b iha ihb =>
    intro s p hp
    simp only [reMatch] at hp
    rw [mem_catMap] at hp
    obtain ⟨q, hq, hp2⟩ := hp
    simp only [List.mem_map] at hp2
    obtain ⟨q2, hq2, rfl⟩ := hp2
    exact List.IsSuffix.trans (ihb q.1 q2 hq2) (iha s q hq)
  | alt a b iha ihb =>
    intro s p hp
    simp only [reMatch, List.mem_append] at hp
    rcases hp with h | h
    · exact iha s p h
    · exact ihb s p h
  | star neg cs greedy =>
    intro s p hp
    simp only [reMatch] at hp
    have hp2 : p ∈ (List.range ((s.takeWhile (clsMem neg cs)).length + 1)).map
        (fun k => ((s.drop k, none) : Str × Option Str)) := by
      by_cases hg : greedy
      · rw [if_pos hg] at hp
        exact (List.mem_reverse).mp hp
      · rw [if_neg hg] at hp
        exact hp
    simp only [List.mem_map, List.mem_range] at hp2
    obtain ⟨k, hk, rfl⟩ := hp2
    exact List.drop_suffix k s
  | opt a greedy iha =>
    intro s p hp
    simp only [reMatch] at hp
    by_cases hg : greedy
    · rw [if_pos hg] at hp
      rcases List.mem_append.mp hp with h | h
      · exact iha s p h
      · simp only [List.mem_singleton] at h
        subst h
        exact List.suffix_refl s
    · rw [if_neg hg] at hp
      rcases List.mem_cons.mp hp with h | h
      · subst h
        exact List.suffix_refl s
      · exact iha s p h
  | grp a iha =>
    intro s p hp
    simp only [reMatch, List.mem_map] at hp
    obtain ⟨q, hq, rfl⟩ := hp
    exact iha s q hq

theorem hasSub_cons_false {w : Str} {x : Char} {t : Str} (h : hasSub w (x :: t) = false) :
    hasPre w (x :: t) = false ∧ hasSub w t = false := by
  simp only [hasSub, Bool.or_eq_false_iff] at h
  exact h

theorem hasSub_suffix_mono : ∀ (w t s : Str), t <:+ s → hasSub w t = true → hasSub w s = true := by
  intro w t s hts h
  obtain ⟨u, rfl⟩ := hts
  induction u with
  | nil => simpa using h
  | cons c u ih =>
    have ih2 : hasSub w (List.append u t) = true := ih
    show (hasPre w (c :: List.append u t) || hasSub w (List.append u t)) = true
    rw [ih2, Bool.or_true]

theorem hasSub_of_pre_suffix : ∀ (w t s : Str), t <:+ s → hasPre w t = true →
    hasSub w s = true := by
  intro w t s hts hp
  apply hasSub_suffix_mono w t s hts
  cases t with
  | nil => simp [hasSub, hp]
  | cons c cs => simp [hasSub, hp]

theorem reMatch_lit_pre : ∀ (w s : Str), reMatch (lit w) s ≠ [] → hasPre w s = true := by
  intro w
  induction w with
  | nil => intro s _; rfl
  | cons c cs ih =>
    intro s h
    cases s with
    | nil =>
      exfalso
      apply h
      simp [lit, reMatch, catMap]
    | cons c' rest =>
      simp only [lit, reMatch] at h
      by_cases hc : clsMem false [c] c' = true
      · have hcc : c' = c := by
          simpa [clsMem, chMem] using hc
        rw [if_pos hc] at h
        have h2 : reMatch (lit cs) rest ≠ [] := by
          intro hnil
          apply h
          simp [catMap, hnil]
        have h3 := ih rest h2
        subst hcc
        simp [hasPre, h3]
      · have hcf : clsMem false [c] c' = false := by
          simpa using hc
        simp [hcf, catMap] at h

theorem reMatch_lit_none (w s : Str) (h : hasPre w s = false) : reMatch (lit w) s = [] := by
  by_cases hne : reMatch (lit w) s = []
  · exact hne
  · rw [reMatch_lit_pre w s hne] at h
    cases h

theorem reMatch_lit_exact : ∀ (w t : Str), reMatch (lit w) (w ++ t) = [(t, none)] := by
  intro w
  induction w with
  | nil => intro t; simp [lit, reMatch]
  | cons c cs ih =>
    intro t
    simp only [lit, reMatch, List.cons_append]
    have hc : clsMem false [c] c = true := by simp [clsMem, chMem]
    rw [if_pos hc]
    simp [catMap, ih, Option.orElse]

theorem reMatch_seq (a b : RE) (s : Str) :
    reMatch (.seq a b) s =
      catMap (fun p => (reMatch b p.1).map (fun q => (q.1, p.2.orElse (fun _ => q.2))))
        (reMatch a s) := rfl

theorem catMap_ne_nil {α β : Type} (f : α → List β) (l : List α) (h : catMap f l ≠ []) :
    ∃ a ∈ l, f a ≠ [] := by
  induction l with
  | nil => simp [catMap] at h
  | cons a as ih =>
    simp only [catMap] at h
    by_cases ha : f a = []
    · simp only [ha, List.nil_append] at h
      obtain ⟨b, hb, hfb⟩ := ih h
      exact ⟨b, List.mem_cons_of_mem _ hb, hfb⟩
    · exact ⟨a, List.mem_cons_self a as, ha⟩

theorem comment_match_pre (s : Str) (h : reMatch commentRE s ≠ []) :
    hasPre (str "<!--") s = true := by
  apply reMatch_lit_pre
  intro hnil
  apply h
  rw [show commentRE = .seq (lit (str "<!--")) (.seq (.star true [] false) (lit (str "-->")))
    from rfl]
  rw [reMatch_seq, hnil]
  rfl

theorem comment_match_close (s : Str) (h : reMatch commentRE s ≠ []) :
    hasSub (str "-->") s = true := by
  rw [show commentRE = .seq (lit (str "<!--")) (.seq (.star true [] false) (lit (str "-->")))
    from rfl, reMatch_seq] at h
  obtain ⟨p, hp, hfp⟩ := catMap_ne_nil _ _ h
  have hfp2 : reMatch (.seq (.star true [] false) (lit (str "-->"))) p.1 ≠ [] := by
    intro hnil
    apply hfp
    rw [hnil]
    rfl
  rw [reMatch_seq] at hfp2
  obtain ⟨d, hd, hfd⟩ := catMap_ne_nil _ _ hfp2
  have hfd2 : reMatch (lit (str "-->")) d.1 ≠ [] := by
    intro hnil
    apply hfd
    rw [hnil]
    rfl
  have hpre := reMatch_lit_pre _ _ hfd2
  have hsuf1 : d.1 <:+ p.1 := reMatch_suffix _ _ d hd
  have hsuf2 : p.1 <:+ s := reMatch_suffix _ _ p hp
  exact hasSub_of_pre_suffix _ _ _ (List.IsSuffix.trans hsuf1 hsuf2) hpre

theorem reFind_comment_none : ∀ (s : Str), hasSub (str "-->") s = false →
    reFind commentRE s = none := by
  intro s
  induction s with
  | nil =>
    intro _
    rfl
  | cons c cs ih =>
    intro h
    obtain ⟨h1, h2⟩ := hasSub_cons_false h
    have hm : reMatch commentRE (c :: cs) = [] := by
      by_cases hne : reMatch commentRE (c :: cs) = []
      · exact hne
      · have := comment_match_close _ hne
        rw [this] at h
        cases h
    simp [reFind, hm, ih h2]

theorem removeComments_id (s : Str) (h : hasSub (str "-->") s = false) :
    removeComments s = s := by
  have hf := reFind_comment_none s h
  simp [removeComments, reReplaceAll, reReplaceAllFuel, hf]

theorem reMatch_consume_lit_cons (c : Char) (w : Str) (b : RE) (s : Str)
    (p : Str × Option Str) (hp : p ∈ reMatch (.seq (lit (c :: w)) b) s) :
    p.1.length < s.length := by
  rw [reMatch_seq, mem_catMap] at hp
  obtain ⟨q, hq, hp2⟩ := hp
  simp only [List.mem_map] at hp2
  obtain ⟨q2, hq2, rfl⟩ := hp2
  have hql : q.1.length < s.length := by
    rw [show lit (c :: w) = .seq (.cls false [c]) (lit w) from rfl, reMatch_seq,
      mem_catMap] at hq
    obtain ⟨q0, hq0, hq2m⟩ := hq
    cases s with
    | nil => simp [reMatch] at hq0
    | cons c' rest =>
      simp only [reMatch] at hq0
      by_cases hcm : clsMem false [c] c' = true
      · rw [if_pos hcm] at hq0
        simp only [List.mem_singleton] at hq0
        subst hq0
        simp only [List.mem_map] at hq2m
        obtain ⟨q3, hq3, rfl⟩ := hq2m
        have hs3 : q3.1 <:+ rest := reMatch_suffix _ _ q3 hq3
        have hl3 := List.IsSuffix.length_le hs3
        simp only [List.length_cons]
        omega
      · have hcf : clsMem false [c] c' = false := by simpa using hcm
        simp [hcf] at hq0
  have hs2 : q2.1 <:+ q.1 := reMatch_suffix _ _ q2 hq2
  have hl2 := List.IsSuffix.length_le hs2
  show q2.1.length < s.length
  omega

theorem comment_match_consumes (s : Str) (p : Str × Option Str)
    (hp : p ∈ reMatch commentRE s) : p.1.length < s.length := by
  rw [show commentRE = .seq (lit ('<' :: str "!--"))
    (.seq (.star true [] false) (lit (str "-->"))) from rfl] at hp
  exact reMatch_consume_lit_cons '<' (str "!--") _ s p hp

theorem reFind_decomp (r : RE) : ∀ (s b m : Str) (g : Option Str) (a : Str),
    reFind r s = some (b, m, g, a) → s = b ++ m ++ a := by
  intro s
  induction s with
  | nil =>
    intro b m g a hf
    simp only [reFind] at hf
    cases hm : reMatch r [] with
    | nil =>
      rw [hm] at hf
      cases hf
    | cons hd tl =>
      obtain ⟨rest, g'⟩ := hd
      rw [hm] at hf
      simp only [Option.some.injEq, Prod.mk.injEq] at hf
      obtain ⟨rfl, rfl, rfl, rfl⟩ := hf
      have hmem : ((rest, g') : Str × Option Str) ∈ reMatch r [] := by
        rw [hm]; exact List.mem_cons_self _ _
      have hsuf : rest <:+ [] := reMatch_suffix _ _ _ hmem
      have : rest = [] := List.eq_nil_of_suffix_nil hsuf
      simp [this]
  | cons c cs ih =>
    intro b m g a hf
    cases hm : reMatch r (c :: cs) with
    | cons hd tl =>
      obtain ⟨rest, g'⟩ := hd
      simp only [reFind, hm] at hf
      simp only [Option.some.injEq, Prod.mk.injEq] at hf
      obtain ⟨rfl, rfl, rfl, rfl⟩ := hf
      have hmem : ((rest, g') : Str × Option Str) ∈ reMatch r (c :: cs) := by
        rw [hm]; exact List.mem_cons_self _ _
      have hsuf : rest <:+ c :: cs := reMatch_suffix _ _ _ hmem
      obtain ⟨u, hu⟩ := hsuf
      have htake : (u ++ rest).take ((u ++ rest).length - rest.length) = u := by
        have hul : (u ++ rest).length - rest.length = u.length := by
          rw [List.length_append]; omega
        rw [hul, List.take_left]
      rw [← hu, htake]
      simp
    | nil =>
      simp only [reFind, hm] at hf
      cases hrec : reFind r cs with
      | none =>
        rw [hrec] at hf
        cases hf
      | some x =>
        rw [hrec] at hf
        obtain ⟨b1, m1, g1, a1⟩ := x
        simp only [Option.map_some', Option.some.injEq, Prod.mk.injEq] at hf
        obtain ⟨rfl, rfl, rfl, rfl⟩ := hf
        have := ih b1 m1 g1 a1 hrec
        simp [this]

theorem reFind_comment_matched_ne : ∀ (s b m : Str) (g : Option Str) (a : Str),
    reFind commentRE s = some (b, m, g, a) → m ≠ [] := by
  intro s
  induction s with
  | nil =>
    intro b m g a hf
    have hnone : reFind commentRE ([] : Str) = none := rfl
    rw [hnone] at hf
    cases hf
  | cons c cs ih =>
    intro b m g a hf
    cases hm : reMatch commentRE (c :: cs) with
    | cons hd tl =>
      obtain ⟨rest, g'⟩ := hd
      simp only [reFind, hm] at hf
      simp only [Option.some.injEq, Prod.mk.injEq] at hf
      obtain ⟨rfl, rfl, rfl, rfl⟩ := hf
      have hmem : ((rest, g') : Str × Option Str) ∈ reMatch commentRE (c :: cs) := by
        rw [hm]; exact List.mem_cons_self _ _
      have hlt := comment_match_consumes _ _ hmem
      have hlt2 : rest.length < (c :: cs).length := hlt
      intro hemp
      have hn : 0 < (c :: cs).length - rest.length := by omega
      cases hnn : (c :: cs).length - rest.length with
      | zero => omega
      | succ k =>
        rw [hnn] at hemp
        simp at hemp
    | nil =>
      simp only [reFind, hm] at hf
      cases hrec : reFind commentRE cs with
      | none =>
        rw [hrec] at hf
        cases hf
      | some x =>
        rw [hrec] at hf
        obtain ⟨b1, m1, g1, a1⟩ := x
        simp only [Option.map_some', Option.some.injEq, Prod.mk.injEq] at hf
        obtain ⟨rfl, rfl, rfl, rfl⟩ := hf
        exact ih b1 m1 g1 a1 hrec

theorem removeCommentsFuel_inv : ∀ (n f : Nat) (s : Str), s.length < f → s.length ≤ n →
    reReplaceAllFuel commentRE (fun _ => []) f s = removeComments s := by
  intro n
  induction n with
  | zero =>
    intro f s hf hn
    have hs : s = [] := List.eq_nil_of_length_eq_zero (Nat.le_zero.mp hn)
    subst hs
    cases f with
    | zero => omega
    | succ f2 =>
      have hnone : reFind commentRE ([] : Str) = none := rfl
      simp [reReplaceAllFuel, hnone, removeComments, reReplaceAll]
  | succ n ih =>
    intro f s hf hn
    cases f with
    | zero => omega
    | succ f2 =>
      cases hfind : reFind commentRE s with
      | none =>
        simp [reReplaceAllFuel, hfind, removeComments, reReplaceAll]
      | some x =>
        obtain ⟨b, m, g, a⟩ := x
        have hmne : m ≠ [] := reFind_comment_matched_ne s b m g a hfind
        have hdecomp := reFind_decomp commentRE s b m g a hfind
        have hlen : s.length = b.length + m.length + a.length := by
          rw [hdecomp]
          simp [List.length_append]
          omega
        have hmpos : 0 < m.length := List.length_pos.mpr hmne
        rw [removeComments, reReplaceAll]
        simp only [reReplaceAllFuel, hfind, if_neg hmne]
        rw [ih f2 a (by omega) (by omega), ih s.length a (by omega) (by omega)]

theorem hasSub_false_suffix (w t s : Str) (hts : t <:+ s) (h : hasSub w s = false) :
    hasSub w t = false := by
  by_cases ht : hasSub w t = true
  · rw [hasSub_suffix_mono w t s hts ht] at h
    cases h
  · simpa using ht

theorem close_boundary : ∀ (u w : Str), u ≠ [] → hasSub (str "-->") u = false →
    hasPre (str "-->") (u ++ (str "-->" ++ w)) = false := by
  intro u w hne hsub
  have h3 : str "-->" = ['-', '-', '>'] := rfl
  rw [h3] at hsub ⊢
  cases u with
  | nil => exact absurd rfl hne
  | cons x u1 =>
    cases u1 with
    | nil => simp [hasPre]
    | cons y u2 =>
      cases u2 with
      | nil => simp [hasPre]
      | cons z u3 =>
        by_cases hx : ('-' : Char) = x
        · by_cases hy : ('-' : Char) = y
          · by_cases hz : ('>' : Char) = z
            · exfalso
              subst hx
              subst hy
              subst hz
              simp [hasSub, hasPre] at hsub
            · simp [hasPre, hx, hy, hz]
          · simp [hasPre, hx, hy]
        · simp [hasPre, hx]

theorem open_boundary : ∀ (u w : Str), u ≠ [] → hasSub (str "<!--") u = false →
    hasPre (str "<!--") (u ++ (str "<!--" ++ w)) = false := by
  intro u w hne hsub
  have h4 : str "<!--" = ['<', '!', '-', '-'] := rfl
  rw [h4] at hsub ⊢
  cases u with
  | nil => exact absurd rfl hne
  | cons x u1 =>
    cases u1 with
    | nil => simp [hasPre]
    | cons y u2 =>
      cases u2 with
      | nil => simp [hasPre]
      | cons z u3 =>
        cases u3 with
        | nil => simp [hasPre]
        | cons t u4 =>
          by_cases hx : ('<' : Char) = x
          · by_cases hy : ('!' : Char) = y
            · by_cases hz : ('-' : Char) = z
              · by_cases ht : ('-' : Char) = t
                · exfalso
                  subst hx
                  subst hy
                  subst hz
                  subst ht
                  simp [hasSub, hasPre] at hsub
                · simp [hasPre, hx, hy, hz, ht]
              · simp [hasPre, hx, hy, hz]
            · simp [hasPre, hx, hy]
          · simp [hasPre, hx]

theorem takeWhile_any (T : Str) : T.takeWhile (clsMem true []) = T := by
  induction T with
  | nil => rfl
  | cons c rest ih =>
    have hc : clsMem true [] c = true := rfl
    simp [List.takeWhile_cons, hc, ih]

theorem catMap_cons {α β : Type} (f : α → List β) (a : α) (l : List α) :
    catMap f (a :: l) = f a ++ catMap f l := rfl

theorem star_lazy_cons (r2 : RE) (x : Char) (t : Str) :
    reMatch (.seq (.star true [] false) r2) (x :: t) =
      (reMatch r2 (x :: t)).map (fun q => (q.1, (none : Option Str).orElse (fun _ => q.2))) ++
        reMatch (.seq (.star true [] false) r2) t := by
  rw [reMatch_seq, reMatch_seq]
  have hstar : ∀ (s : Str), reMatch (.star true [] false) s =
      (List.range (s.length + 1)).map (fun k => ((s.drop k, none) : Str × Option Str)) := by
    intro s
    simp only [reMatch]
    rw [takeWhile_any]
    rfl
  rw [hstar (x :: t), hstar t]
  rw [show (x :: t).length + 1 = (t.length + 1) + 1 from by simp]
  rw [List.range_succ_eq_map]
  simp only [List.map_cons, List.drop_zero, List.map_map]
  rw [catMap_cons]
  simp [Function.comp, List.drop_succ_cons]
  congr 1

theorem reFind_head (r : RE) (s rest : Str) (g : Option Str) (tl : List (Str × Option Str))
    (hm : reMatch r s = (rest, g) :: tl) (hs : s ≠ []) :
    reFind r s = some ([], s.take (s.length - rest.length), g, rest) := by
  cases s with
  | nil => exact absurd rfl hs
  | cons c cs => simp [reFind, hm]

theorem reFind_cons_nil (r : RE) (x : Char) (t : Str) (hm : reMatch r (x :: t) = []) :
    reFind r (x :: t) = (reFind r t).map (fun y => (x :: y.1, y.2.1, y.2.2.1, y.2.2.2)) := by
  simp [reFind, hm]

theorem comment_inner_first : ∀ (b c : Str), hasSub (str "-->") b = false →
    ∃ tl, reMatch (.seq (.star true [] false) (lit (str "-->"))) (b ++ (str "-->" ++ c)) =
      ((c, (none : Option Str)) :: tl) := by
  intro b
  induction b with
  | nil =>
    intro c _
    rw [List.nil_append]
    have hsplit : str "-->" ++ c = '-' :: (str "->" ++ c) := rfl
    rw [hsplit, star_lazy_cons, ← hsplit, reMatch_lit_exact]
    exact ⟨_, rfl⟩
  | cons x b2 ih =>
    intro c hsub
    obtain ⟨h1, h2⟩ := hasSub_cons_false hsub
    obtain ⟨tl2, htl2⟩ := ih c h2
    rw [List.cons_append, star_lazy_cons, htl2]
    have hbound := close_boundary (x :: b2) c (by simp) hsub
    have hnil : reMatch (lit (str "-->")) (x :: (b2 ++ (str "-->" ++ c))) = [] := by
      have := reMatch_lit_none (str "-->") ((x :: b2) ++ (str "-->" ++ c)) hbound
      rw [List.cons_append] at this
      exact this
    rw [hnil]
    exact ⟨tl2, by simp⟩

theorem comment_head (b c : Str) (hb : hasSub (str "-->") b = false) :
    ∃ tl, reMatch commentRE ((str "<!--" ++ b) ++ (str "-->" ++ c)) =
      ((c, (none : Option Str)) :: tl) := by
  obtain ⟨tl0, htl0⟩ := comment_inner_first b c hb
  rw [show commentRE = .seq (lit (str "<!--"))
    (.seq (.star true [] false) (lit (str "-->"))) from rfl, reMatch_seq]
  rw [show ((str "<!--" ++ b) ++ (str "-->" ++ c)) = str "<!--" ++ (b ++ (str "-->" ++ c))
    from by simp]
  rw [reMatch_lit_exact]
  refine ⟨(tl0.map (fun q => (q.1, (none : Option Str).orElse (fun _ => q.2)))) ++ [], ?_⟩
  rw [catMap_cons]
  show (reMatch (.seq (.star true [] false) (lit (str "-->"))) (b ++ (str "-->" ++ c))).map
      (fun q => (q.1, (none : Option Str).orElse (fun _ => q.2))) ++
      ([] : List (Str × Option Str)) =
    ((c, (none : Option Str)) ::
      (tl0.map (fun q => (q.1, (none : Option Str).orElse (fun _ => q.2))) ++ []))
  rw [htl0]
  rfl

theorem find_comment_span : ∀ (a b c : Str), hasSub (str "<!--") a = false →
    hasSub (str "-->") b = false →
    reFind commentRE (a ++ ((str "<!--" ++ b) ++ (str "-->" ++ c))) =
      some (a, (str "<!--" ++ b) ++ str "-->", none, c) := by
  intro a
  induction a with
  | nil =>
    intro b c _ hb
    rw [List.nil_append]
    obtain ⟨tl, htl⟩ := comment_head b c hb
    have hne : ((str "<!--" ++ b) ++ (str "-->" ++ c)) ≠ [] := by
      intro h
      have hl := congrArg List.length h
      rw [List.length_append, List.length_append, List.length_append] at hl
      rw [show (str "<!--").length = 4 from rfl, show (str "-->").length = 3 from rfl] at hl
      simp at hl
    rw [reFind_head commentRE _ c none tl htl hne]
    have hassoc : ((str "<!--" ++ b) ++ (str "-->" ++ c)) =
        (((str "<!--" ++ b) ++ str "-->") ++ c) := by simp
    rw [hassoc]
    have htake : (((str "<!--" ++ b) ++ str "-->") ++ c).take
        ((((str "<!--" ++ b) ++ str "-->") ++ c).length - c.length) =
        ((str "<!--" ++ b) ++ str "-->") := by
      have hul : (((str "<!--" ++ b) ++ str "-->") ++ c).length - c.length =
          ((str "<!--" ++ b) ++ str "-->").length := by
        rw [List.length_append]; omega
      rw [hul, List.take_left]
    rw [htake]
  | cons x a2 ih =>
    intro b c ha hb
    obtain ⟨h1, h2⟩ := hasSub_cons_false ha
    have hnil : reMatch commentRE ((x :: a2) ++ ((str "<!--" ++ b) ++ (str "-->" ++ c))) = [] := by
      by_cases hne2 : reMatch commentRE ((x :: a2) ++ ((str "<!--" ++ b) ++ (str "-->" ++ c))) = []
      · exact hne2
      · exfalso
        have hpre := comment_match_pre _ hne2
        have hassoc2 : ((str "<!--" ++ b) ++ (str "-->" ++ c)) =
            str "<!--" ++ (b ++ (str "-->" ++ c)) := by simp
        rw [hassoc2] at hpre
        have hob := open_boundary (x :: a2) (b ++ (str "-->" ++ c)) (by simp) ha
        rw [hob] at hpre
        cases hpre
    have hnil2 : reMatch commentRE (x :: (a2 ++ ((str "<!--" ++ b) ++ (str "-->" ++ c)))) = [] := by
      rw [← List.cons_append]
      exact hnil
    rw [List.cons_append, reFind_cons_nil commentRE x _ hnil2, ih b c h2 hb]
    rfl

/-! Claim C10. -/

/-- Claim C10 (confirmed): comment stripping removes exactly the complete,
non-greedy comment spans and nothing else — a span reaching from an opener
to the first following close marker is removed (the prefix before it is
kept verbatim and stripping continues after the span), text with no close
marker at all is left untouched (so an unterminated opener hides nothing),
and therefore a layout directive after an unclosed comment opener still
drives the file's Layout classification. -/
theorem C10_comment_stripping :
    (∀ (a b c : Str), hasSub (str "<!--") a = false → hasSub (str "-->") b = false →
       removeComments (a ++ ((str "<!--" ++ b) ++ (str "-->" ++ c))) =
         a ++ removeComments c) ∧
    (∀ (s : Str), hasSub (str "-->") s = false → removeComments s = s) ∧
    (∀ (v : Blocks) (filename s : Str), hasSub (str "-->") s = false →
       (classifyContents v filename s).1 = isLayoutTemplate s) := by
  refine ⟨?_, removeComments_id, ?_⟩
  · intro a b c ha hb
    have hfind := find_comment_span a b c ha hb
    have hmne : ((str "<!--" ++ b) ++ str "-->") ≠ [] := by
      intro h
      have hl := congrArg List.length h
      rw [List.length_append, List.length_append] at hl
      rw [show (str "-->").length = 3 from rfl] at hl
      simp at hl
    have hfl : c.length < (a ++ ((str "<!--" ++ b) ++ (str "-->" ++ c))).length := by
      rw [List.length_append, List.length_append, List.length_append, List.length_append]
      rw [show (str "<!--").length = 4 from rfl, show (str "-->").length = 3 from rfl]
      omega
    rw [removeComments, reReplaceAll]
    simp only [reReplaceAllFuel, hfind, if_neg hmne]
    rw [removeCommentsFuel_inv c.length
      ((a ++ ((str "<!--" ++ b) ++ (str "-->" ++ c))).length) c hfl (Nat.le_refl _)]
    simp
  · intro v filename s h
    have hrc := removeComments_id s h
    have hls : isLayoutTemplate s = isLayoutTemplate (removeComments s) := by rw [hrc]
    rw [hls]
    cases hl : isLayoutTemplate (removeComments s) <;> simp [classifyContents, hl]

/-- Witness for C10: the three parts at concrete inputs — a complete span
is removed exactly, an unterminated opener leaves everything in place, and
a yield after an unclosed opener still classifies the file as Layout. -/
theorem C10_witness :
    hasSub (str "<!--") (str "A") = false ∧
    hasSub (str "-->") (str " x ") = false ∧
    removeComments (str "A" ++ ((str "<!--" ++ str " x ") ++ (str "-->" ++ str "B<!-- t"))) =
      str "A" ++ removeComments (str "B<!-- t") ∧
    hasSub (str "-->") (str "<!-- \x7b\x7b yield \x7d\x7d") = false ∧
    removeComments (str "<!-- \x7b\x7b yield \x7d\x7d") = str "<!-- \x7b\x7b yield \x7d\x7d" ∧
    (classifyContents baseEngine (str "f.html") (str "<!-- \x7b\x7b yield \x7d\x7d")).1 =
      isLayoutTemplate (str "<!-- \x7b\x7b yield \x7d\x7d") := by
  refine ⟨by decide, by decide, ?_, by decide, ?_, ?_⟩
  · exact C10_comment_stripping.1 (str "A") (str " x ") (str "B<!-- t") (by decide) (by decide)
  · exact C10_comment_stripping.2.1 (str "<!-- \x7b\x7b yield \x7d\x7d") (by decide)
  · exact C10_comment_stripping.2.2 baseEngine (str "f.html")
      (str "<!-- \x7b\x7b yield \x7d\x7d") (by decide)

/-! Language semantics for the regex embedding: the set of strings a
pattern can consume, ignoring priority and captures. -/

def Lang : RE → Str → Prop
  | .eps, s => s = []
  | .cls neg cs, s => ∃ c, s = [c] ∧ clsMem neg cs c = true
  | .seq a b, s => ∃ u v, s = u ++ v ∧ Lang a u ∧ Lang b v
  | .alt a b, s => Lang a s ∨ Lang b s
  | .star neg cs _, s => ∀ c ∈ s, clsMem neg cs c = true
  | .opt a _, s => s = [] ∨ Lang a s
  | .grp a, s => Lang a s

theorem Lang_lit : ∀ (w s : Str), Lang (lit w) s ↔ s = w := by
  intro w
  induction w with
  | nil =>
    intro s
    simp [lit, Lang]
  | cons c cs ih =>
    intro s
    simp only [lit, Lang]
    constructor
    · rintro ⟨u, v, rfl, ⟨c', rfl, hc⟩, hv⟩
      have hcc : c' = c := by
        by_cases h : c' = c
        · exact h
        · simp [clsMem, chMem, h] at hc
      rw [hcc, (ih v).mp hv]
      rfl
    · rintro rfl
      exact ⟨[c], cs, rfl, ⟨c, rfl, by simp [clsMem, chMem]⟩, (ih cs).mpr rfl⟩

theorem takeWhile_le_of_all (P : Char → Bool) : ∀ (u v : Str), (∀ c ∈ u, P c = true) →
    u.length ≤ ((u ++ v).takeWhile P).length := by
  intro u
  induction u with
  | nil => intro v _; simp
  | cons c cs ih =>
    intro v h
    have hc : P c = true := h c (List.mem_cons_self c cs)
    simp [List.cons_append, List.takeWhile_cons, hc]
    exact ih v (fun x hx => h x (List.mem_cons_of_mem c hx))

theorem all_of_mem_take_takeWhile (P : Char → Bool) (s : Str) (k : Nat)
    (hk : k ≤ (s.takeWhile P).length) : ∀ c ∈ s.take k, P c = true := by
  intro c hc
  have heq : s.take k = (s.takeWhile P).take k := by
    have hs : s.takeWhile P ++ s.dropWhile P = s := List.takeWhile_append_dropWhile P s
    calc s.take k = ((s.takeWhile P) ++ s.dropWhile P).take k := by rw [hs]
    _ = (s.takeWhile P).take k := List.take_append_of_le_length hk
  rw [heq] at hc
  exact List.mem_takeWhile_imp (List.take_subset k _ hc)

theorem reMatch_sound : ∀ (r : RE) (s : Str) (p : Str × Option Str),
    p ∈ reMatch r s → ∃ u, s = u ++ p.1 ∧ Lang r u := by
  intro r
  induction r with
  | eps =>
    intro s p hp
    simp only [reMatch, List.mem_singleton] at hp
    subst hp
    exact ⟨[], rfl, rfl⟩
  | cls neg cs =>
    intro s p hp
    cases s with
    | nil => simp [reMatch] at hp
    | cons c rest =>
      simp only [reMatch] at hp
      by_cases h : clsMem neg cs c
      · rw [if_pos h] at hp
        simp only [List.mem_singleton] at hp
        subst hp
        exact ⟨[c], rfl, ⟨c, rfl, h⟩⟩
      · rw [if_neg h] at hp
        simp at hp
  | seq a b iha ihb =>
    intro s p hp
    rw [reMatch_seq, mem_catMap] at hp
    obtain ⟨q, hq, hp2⟩ := hp
    simp only [List.mem_map] at hp2
    obtain ⟨q2, hq2, rfl⟩ := hp2
    obtain ⟨u1, hs1, hl1⟩ := iha s q hq
    obtain ⟨u2, hs2, hl2⟩ := ihb q.1 q2 hq2
    refine ⟨u1 ++ u2, ?_, ⟨u1, u2, rfl, hl1, hl2⟩⟩
    rw [hs1, hs2, List.append_assoc]
  | alt a b iha ihb =>
    intro s p hp
    simp only [reMatch, List.mem_append] at hp
    rcases hp with h | h
    · obtain ⟨u, hs, hl⟩ := iha s p h
      exact ⟨u, hs, Or.inl hl⟩
    · obtain ⟨u, hs, hl⟩ := ihb s p h
      exact ⟨u, hs, Or.inr hl⟩
  | star neg cs greedy =>
    intro s p hp
    simp only [reMatch] at hp
    have hp2 : p ∈ (List.range ((s.takeWhile (clsMem neg cs)).length + 1)).map
        (fun k => ((s.drop k, none) : Str × Option Str)) := by
      by_cases hg : greedy
      · rw [if_pos hg] at hp
        exact (List.mem_reverse).mp hp
      · rw [if_neg hg] at hp
        exact hp
    simp only [List.mem_map, List.mem_range] at hp2
    obtain ⟨k, hk, rfl⟩ := hp2
    refine ⟨s.take k, (List.take_append_drop k s).symm, ?_⟩
    intro c hc
    exact all_of_mem_take_takeWhile (clsMem neg cs) s k (by omega) c hc
  | opt a greedy iha =>
    intro s p hp
    simp only [reMatch] at hp
    have hp2 : p ∈ reMatch a s ∨ p = (s, none) := by
      by_cases hg : greedy
      · rw [if_pos hg] at hp
        rcases List.mem_append.mp hp with h | h
        · exact Or.inl h
        · simp only [List.mem_singleton] at h
          exact Or.inr h
      · rw [if_neg hg] at hp
        rcases List.mem_cons.mp hp with h | h
        · exact Or.inr h
        · exact Or.inl h
    rcases hp2 with h | h
    · obtain ⟨u, hs, hl⟩ := iha s p h
      exact ⟨u, hs, Or.inr hl⟩
    · subst h
      exact ⟨[], rfl, Or.inl rfl⟩
  | grp a iha =>
    intro s p hp
    simp only [reMatch, List.mem_map] at hp
    obtain ⟨q, hq, rfl⟩ := hp
    obtain ⟨u, hs, hl⟩ := iha s q hq
    exact ⟨u, hs, hl⟩

theorem reMatch_complete : ∀ (r : RE) (u : Str), Lang r u → ∀ (v : Str),
    ∃ g, ((v, g) : Str × Option Str) ∈ reMatch r (u ++ v) := by
  intro r
  induction r with
  | eps =>
    intro u hu v
    have hu2 : u = [] := hu
    subst hu2
    exact ⟨none, by simp [reMatch]⟩
  | cls neg cs =>
    intro u hu v
    obtain ⟨c, rfl, hc⟩ := (hu : ∃ c, u = [c] ∧ clsMem neg cs c = true)
    refine ⟨none, ?_⟩
    simp [reMatch, hc]
  | seq a b iha ihb =>
    intro u hu v
    obtain ⟨u1, u2, rfl, h1, h2⟩ := (hu : ∃ x y, u = x ++ y ∧ Lang a x ∧ Lang b y)
    obtain ⟨g1, hg1⟩ := iha u1 h1 (u2 ++ v)
    obtain ⟨g2, hg2⟩ := ihb u2 h2 v
    refine ⟨g1.orElse (fun _ => g2), ?_⟩
    rw [reMatch_seq, mem_catMap]
    refine ⟨(u2 ++ v, g1), ?_, ?_⟩
    · rw [List.append_assoc]
      exact hg1
    · simp only [List.mem_map]
      exact ⟨(v, g2), hg2, rfl⟩
  | alt a b iha ihb =>
    intro u hu v
    rcases (hu : Lang a u ∨ Lang b u) with h | h
    · obtain ⟨g, hg⟩ := iha u h v
      refine ⟨g, ?_⟩
      show (v, g) ∈ reMatch a (u ++ v) ++ reMatch b (u ++ v)
      exact List.mem_append_left _ hg
    · obtain ⟨g, hg⟩ := ihb u h v
      refine ⟨g, ?_⟩
      show (v, g) ∈ reMatch a (u ++ v) ++ reMatch b (u ++ v)
      exact List.mem_append_right _ hg
  | star neg cs greedy =>
    intro u hu v
    refine ⟨none, ?_⟩
    have hrun : u.length ≤ (((u ++ v).takeWhile (clsMem neg cs))).length :=
      takeWhile_le_of_all (clsMem neg cs) u v hu
    have hmem : ((v, none) : Str × Option Str) ∈
        (List.range ((((u ++ v).takeWhile (clsMem neg cs))).length + 1)).map
          (fun k => (((u ++ v).drop k, none) : Str × Option Str)) := by
      simp only [List.mem_map, List.mem_range]
      exact ⟨u.length, by omega, by rw [List.drop_left]⟩
    simp only [reMatch]
    by_cases hg : greedy
    · rw [if_pos hg]
      exact List.mem_reverse.mpr hmem
    · rw [if_neg hg]
      exact hmem
  | opt a greedy iha =>
    intro u hu v
    rcases (hu : u = [] ∨ Lang a u) with rfl | h
    · refine ⟨none, ?_⟩
      simp only [reMatch, List.nil_append]
      by_cases hg : greedy
      · rw [if_pos hg]
        exact List.mem_append_right _ (List.mem_singleton.mpr rfl)
      · rw [if_neg hg]
        exact List.mem_cons_self _ _
    · obtain ⟨g, hg⟩ := iha u h v
      refine ⟨g, ?_⟩
      simp only [reMatch]
      by_cases hgr : greedy
      · rw [if_pos hgr]
        exact List.mem_append_left _ hg
      · rw [if_neg hgr]
        exact List.mem_cons_of_mem _ hg
  | grp a iha =>
    intro u hu v
    obtain ⟨g, hg⟩ := iha u hu v
    refine ⟨some ((u ++ v).take ((u ++ v).length - v.length)), ?_⟩
    simp only [reMatch, List.mem_map]
    exact ⟨(v, g), hg, rfl⟩

theorem reMatch_ne_of_lang (r : RE) (u v : Str) (h : Lang r u) : reMatch r (u ++ v) ≠ [] := by
  obtain ⟨g, hg⟩ := reMatch_complete r u h v
  intro hnil
  rw [hnil] at hg
  cases hg

theorem reFind_isSome_of_suffix (r : RE) : ∀ (s t : Str), t <:+ s → reMatch r t ≠ [] →
    (reFind r s).isSome = true := by
  intro s
  induction s with
  | nil =>
    intro t ht hm
    have ht2 : t = [] := List.eq_nil_of_suffix_nil ht
    subst ht2
    cases hm2 : reMatch r [] with
    | nil => exact absurd hm2 hm
    | cons hd tl =>
      obtain ⟨rest, g⟩ := hd
      simp [reFind, hm2]
  | cons c cs ih =>
    intro t ht hm
    cases hm2 : reMatch r (c :: cs) with
    | cons hd tl =>
      obtain ⟨rest, g⟩ := hd
      simp [reFind, hm2]
    | nil =>
      have ht2 : t <:+ cs := by
        obtain ⟨w, hw⟩ := ht
        cases w with
        | nil =>
          simp only [List.nil_append] at hw
          rw [hw] at hm
          exact absurd hm2 hm
        | cons x ws =>
          simp only [List.cons_append, List.cons.injEq] at hw
          exact ⟨ws, hw.2⟩
      rw [reFind_cons_nil r c cs hm2]
      have hih := ih t ht2 hm
      cases hrec : reFind r cs with
      | none => rw [hrec] at hih; simp at hih
      | some x => rfl

theorem reFind_sound (r : RE) : ∀ (s : Str), (reFind r s).isSome = true →
    ∃ u m v, s = u ++ m ++ v ∧ Lang r m := by
  intro s
  induction s with
  | nil =>
    intro h
    cases hm : reMatch r [] with
    | nil => simp [reFind, hm] at h
    | cons hd tl =>
      obtain ⟨rest, g⟩ := hd
      have hmem : ((rest, g) : Str × Option Str) ∈ reMatch r [] := by
        rw [hm]
        exact List.mem_cons_self _ _
      obtain ⟨u, hu, hl⟩ := reMatch_sound r [] (rest, g) hmem
      refine ⟨[], u, rest, ?_, hl⟩
      simpa using hu
  | cons c cs ih =>
    intro h
    cases hm : reMatch r (c :: cs) with
    | cons hd tl =>
      obtain ⟨rest, g⟩ := hd
      have hmem : ((rest, g) : Str × Option Str) ∈ reMatch r (c :: cs) := by
        rw [hm]
        exact List.mem_cons_self _ _
      obtain ⟨u, hu, hl⟩ := reMatch_sound r (c :: cs) (rest, g) hmem
      exact ⟨[], u, rest, by simpa using hu, hl⟩
    | nil =>
      rw [reFind_cons_nil r c cs hm] at h
      have h2 : (reFind r cs).isSome = true := by
        cases hrec : reFind r cs with
        | none => rw [hrec] at h; simp at h
        | some x => rfl
      obtain ⟨u, m, v, hs, hl⟩ := ih h2
      exact ⟨c :: u, m, v, by rw [hs]; rfl, hl⟩

theorem reMatchString_iff_exists (r : RE) (s : Str) :
    reMatchString r s = true ↔ ∃ u m v, s = u ++ m ++ v ∧ Lang r m := by
  constructor
  · intro h
    exact reFind_sound r s h
  · rintro ⟨u, m, v, rfl, hl⟩
    have hne : reMatch r (m ++ v) ≠ [] := reMatch_ne_of_lang r m v hl
    have hsuf : (m ++ v) <:+ (u ++ m ++ v) := ⟨u, by rw [List.append_assoc]⟩
    exact reFind_isSome_of_suffix r (u ++ m ++ v) (m ++ v) hsuf hne

/-! Head-of-list extraction: the first result of a backtracking search is
the head of the block contributed by the first viable alternative. -/

theorem catMap_head_mem {α β : Type} (f : α → List β) :
    ∀ (l : List α) (x : β) (tl : List β), catMap f l = x :: tl →
      ∃ a ∈ l, ∃ tl2, f a = x :: tl2 := by
  intro l
  induction l with
  | nil =>
    intro x tl h
    simp [catMap] at h
  | cons a as ih =>
    intro x tl h
    rw [catMap_cons] at h
    cases hfa : f a with
    | nil =>
      rw [hfa, List.nil_append] at h
      obtain ⟨b, hb, htl2⟩ := ih x tl h
      exact ⟨b, List.mem_cons_of_mem a hb, htl2⟩
    | cons y ys =>
      rw [hfa] at h
      simp only [List.cons_append, List.cons.injEq] at h
      exact ⟨a, List.mem_cons_self a as, ys, by rw [hfa, h.1]⟩

theorem catMap_head_split {α β : Type} (f : α → List β) :
    ∀ (l : List α) (x : β) (tl : List β), catMap f l = x :: tl →
      ∃ l1 a l2, l = l1 ++ a :: l2 ∧ (∀ b ∈ l1, f b = []) ∧ ∃ tl2, f a = x :: tl2 := by
  intro l
  induction l with
  | nil =>
    intro x tl h
    simp [catMap] at h
  | cons a as ih =>
    intro x tl h
    rw [catMap_cons] at h
    cases hfa : f a with
    | nil =>
      rw [hfa, List.nil_append] at h
      obtain ⟨l1, b, l2, hsplit, hall, htl2⟩ := ih x tl h
      refine ⟨a :: l1, b, l2, by rw [hsplit]; rfl, ?_, htl2⟩
      intro c hc
      rcases List.mem_cons.mp hc with rfl | hc2
      · exact hfa
      · exact hall c hc2
    | cons y ys =>
      rw [hfa] at h
      simp only [List.cons_append, List.cons.injEq] at h
      refine ⟨[], a, as, rfl, ?_, ys, by rw [hfa, h.1]⟩
      intro b hb
      simp at hb

theorem map_head_inv {α β : Type} (f : α → β) (l : List α) (x : β) (tl : List β)
    (h : l.map f = x :: tl) : ∃ y ys, l = y :: ys ∧ x = f y ∧ tl = ys.map f := by
  cases l with
  | nil => simp at h
  | cons y ys =>
    simp only [List.map_cons, List.cons.injEq] at h
    exact ⟨y, ys, rfl, h.1.symm, h.2.symm⟩

theorem map_range_decomp {β : Type} :
    ∀ (l1 : List β) (f : Nat → β) (n : Nat) (a : β) (l2 : List β),
      (List.range n).map f = l1 ++ a :: l2 →
      ∃ k, k < n ∧ a = f k ∧ l1 = (List.range k).map f := by
  intro l1
  induction l1 with
  | nil =>
    intro f n a l2 h
    cases n with
    | zero => simp [List.range_zero] at h
    | succ m =>
      rw [List.range_succ_eq_map] at h
      simp only [List.map_cons, List.nil_append, List.cons.injEq] at h
      exact ⟨0, Nat.succ_pos m, h.1.symm, by simp [List.range_zero]⟩
  | cons b l1' ih =>
    intro f n a l2 h
    cases n with
    | zero => simp [List.range_zero] at h
    | succ m =>
      rw [List.range_succ_eq_map] at h
      simp only [List.map_cons, List.cons_append, List.cons.injEq, List.map_map] at h
      obtain ⟨hb, hrest⟩ := h
      obtain ⟨k, hk, ha, hl1⟩ := ih (f ∘ Nat.succ) m a l2 hrest
      refine ⟨k + 1, by omega, ha, ?_⟩
      rw [List.range_succ_eq_map, List.map_cons, List.map_map]
      rw [hb, hl1]

theorem takeWhile_length_le_self (P : Char → Bool) : ∀ (t : Str),
    (t.takeWhile P).length ≤ t.length := by
  intro t
  induction t with
  | nil => simp
  | cons c cs ih =>
    rw [List.takeWhile_cons]
    by_cases h : P c
    · rw [if_pos h]
      simp only [List.length_cons]
      omega
    · rw [if_neg h]
      simp

/-! Membership characterizations for the building blocks of the patterns. -/

theorem reMatch_lit_mem : ∀ (w s : Str) (p : Str × Option Str),
    p ∈ reMatch (lit w) s → s = w ++ p.1 ∧ p.2 = none := by
  intro w
  induction w with
  | nil =>
    intro s p hp
    simp only [lit, reMatch, List.mem_singleton] at hp
    subst hp
    exact ⟨rfl, rfl⟩
  | cons c cs ih =>
    intro s p hp
    rw [show lit (c :: cs) = .seq (.cls false [c]) (lit cs) from rfl, reMatch_seq,
      mem_catMap] at hp
    obtain ⟨q, hq, hp2⟩ := hp
    simp only [List.mem_map] at hp2
    obtain ⟨q2, hq2, rfl⟩ := hp2
    cases s with
    | nil => simp [reMatch] at hq
    | cons c' rest =>
      simp only [reMatch] at hq
      by_cases hcm : clsMem false [c] c' = true
      · rw [if_pos hcm] at hq
        simp only [List.mem_singleton] at hq
        subst hq
        obtain ⟨hs2, hg2⟩ := ih rest q2 hq2
        have hcc : c' = c := by
          by_cases h : c' = c
          · exact h
          · simp [clsMem, chMem, h] at hcm
        constructor
        · show c' :: rest = (c :: cs) ++ q2.1
          rw [hcc, hs2]
          rfl
        · show (none : Option Str).orElse (fun _ => q2.2) = none
          rw [hg2]
          rfl
      · have hcf : clsMem false [c] c' = false := by simpa using hcm
        simp [hcf] at hq

theorem reMatch_optlit_mem (w : Str) (g : Bool) (s : Str) (p : Str × Option Str)
    (hp : p ∈ reMatch (.opt (lit w) g) s) :
    (∃ d, (d = w ∨ d = []) ∧ s = d ++ p.1) ∧ p.2 = none := by
  simp only [reMatch] at hp
  have hp2 : p ∈ reMatch (lit w) s ∨ p = (s, none) := by
    by_cases hg : g
    · rw [if_pos hg] at hp
      rcases List.mem_append.mp hp with h | h
      · exact Or.inl h
      · simp only [List.mem_singleton] at h
        exact Or.inr h
    · rw [if_neg hg] at hp
      rcases List.mem_cons.mp hp with h | h
      · exact Or.inr h
      · exact Or.inl h
  rcases hp2 with h | h
  · obtain ⟨hs, hg2⟩ := reMatch_lit_mem w s p h
    exact ⟨⟨w, Or.inl rfl, hs⟩, hg2⟩
  · subst h
    exact ⟨⟨[], Or.inr rfl, rfl⟩, rfl⟩

theorem reMatch_star_mem (neg : Bool) (cs : List Char) (gr : Bool) (s : Str)
    (p : Str × Option Str) (hp : p ∈ reMatch (.star neg cs gr) s) :
    ∃ k, s = s.take k ++ p.1 ∧ p.2 = none ∧ (∀ c ∈ s.take k, clsMem neg cs c = true) := by
  simp only [reMatch] at hp
  have hp2 : p ∈ (List.range ((s.takeWhile (clsMem neg cs)).length + 1)).map
      (fun k => ((s.drop k, none) : Str × Option Str)) := by
    by_cases hg : gr
    · rw [if_pos hg] at hp
      exact (List.mem_reverse).mp hp
    · rw [if_neg hg] at hp
      exact hp
  simp only [List.mem_map, List.mem_range] at hp2
  obtain ⟨k, hk, rfl⟩ := hp2
  exact ⟨k, (List.take_append_drop k s).symm, rfl, fun c hc =>
    all_of_mem_take_takeWhile (clsMem neg cs) s k (by omega) c hc⟩

theorem seq_head (a b : RE) (s : Str) (x : Str × Option Str) (tl : List (Str × Option Str))
    (h : reMatch (.seq a b) s = x :: tl) :
    ∃ q1 ∈ reMatch a s, ∃ y tl2, reMatch b q1.1 = y :: tl2 ∧
      x = (y.1, q1.2.orElse (fun _ => y.2)) := by
  rw [reMatch_seq] at h
  obtain ⟨q1, hq1, tl3, hblock⟩ := catMap_head_mem _ _ x tl h
  obtain ⟨y, ys, hby, hx, _⟩ := map_head_inv _ _ x tl3 hblock
  exact ⟨q1, hq1, y, ys, hby, hx⟩

theorem reFind_head_inv (r : RE) : ∀ (s b m : Str) (g : Option Str) (a : Str),
    reFind r s = some (b, m, g, a) →
    ∃ tl, reMatch r (m ++ a) = (a, g) :: tl := by
  intro s
  induction s with
  | nil =>
    intro b m g a hf
    simp only [reFind] at hf
    cases hm : reMatch r [] with
    | nil =>
      rw [hm] at hf
      cases hf
    | cons hd tl =>
      obtain ⟨rest, g'⟩ := hd
      rw [hm] at hf
      simp only [Option.some.injEq, Prod.mk.injEq] at hf
      obtain ⟨rfl, rfl, rfl, rfl⟩ := hf
      have hmem : ((rest, g') : Str × Option Str) ∈ reMatch r [] := by
        rw [hm]
        exact List.mem_cons_self _ _
      have hsuf : rest <:+ [] := reMatch_suffix _ _ _ hmem
      have hrest : rest = [] := List.eq_nil_of_suffix_nil hsuf
      subst hrest
      exact ⟨tl, hm⟩
  | cons c cs ih =>
    intro b m g a hf
    cases hm : reMatch r (c :: cs) with
    | cons hd tl =>
      obtain ⟨rest, g'⟩ := hd
      simp only [reFind, hm] at hf
      simp only [Option.some.injEq, Prod.mk.injEq] at hf
      obtain ⟨rfl, rfl, rfl, rfl⟩ := hf
      have hmem : ((rest, g') : Str × Option Str) ∈ reMatch r (c :: cs) := by
        rw [hm]
        exact List.mem_cons_self _ _
      have hsuf : rest <:+ c :: cs := reMatch_suffix _ _ _ hmem
      obtain ⟨u, hu⟩ := hsuf
      have htake : (c :: cs).take ((c :: cs).length - rest.length) = u := by
        rw [← hu]
        have hul : (u ++ rest).length - rest.length = u.length := by
          rw [List.length_append]
          omega
        rw [hul, List.take_left]
      rw [htake, hu]
      exact ⟨tl, hm⟩
    | nil =>
      simp only [reFind, hm] at hf
      cases hrec : reFind r cs with
      | none =>
        rw [hrec] at hf
        cases hf
      | some x =>
        rw [hrec] at hf
        obtain ⟨b1, m1, g1, a1⟩ := x
        simp only [Option.map_some', Option.some.injEq, Prod.mk.injEq] at hf
        obtain ⟨rfl, rfl, rfl, rfl⟩ := hf
        exact ih b1 m1 g1 a1 hrec

/-! The yield pattern split at its capture group, and the exact shape of
the first (leftmost, lazy) match the engine reports for it. -/

def yieldTailRE : RE :=
  .seq (.star false spaceChars true) (.seq (.opt (lit (str "-")) true) (lit (str "\x7d\x7d")))

def yieldGrpRE : RE := .seq (.grp (.star true ['\n'] false)) yieldTailRE

theorem yieldRE_decomp : yieldRE =
    .seq (lit (str "\x7b\x7b"))
     (.seq (.opt (lit (str "-")) true)
      (.seq (.star false spaceChars true)
       (.seq (lit (str "yield"))
        (.seq (.star false spaceChars true) yieldGrpRE)))) := rfl

theorem yieldTail_close_matches (w : Str) :
    reMatch yieldTailRE (str "\x7d\x7d" ++ w) ≠ [] := by
  apply reMatch_ne_of_lang
  show Lang yieldTailRE (str "\x7d\x7d")
  exact ⟨[], str "\x7d\x7d", rfl, fun c hc => absurd hc (List.not_mem_nil c),
    ⟨[], str "\x7d\x7d", rfl, Or.inl rfl, (Lang_lit _ _).mpr rfl⟩⟩

theorem yieldGrp_head (t : Str) (y : Str × Option Str) (tl : List (Str × Option Str))
    (h : reMatch yieldGrpRE t = y :: tl) :
    ∃ k, k ≤ (t.takeWhile (clsMem true ['\n'])).length ∧
      (∀ j, j < k → reMatch yieldTailRE (t.drop j) = []) ∧
      ∃ z tl2, reMatch yieldTailRE (t.drop k) = z :: tl2 ∧ y = (z.1, some (t.take k)) := by
  rw [show yieldGrpRE = .seq (.grp (.star true ['\n'] false)) yieldTailRE from rfl,
    reMatch_seq] at h
  have hstar : reMatch (RE.star true ['\n'] false) t =
      (List.range ((t.takeWhile (clsMem true ['\n'])).length + 1)).map
        (fun k => ((t.drop k, none) : Str × Option Str)) := rfl
  have hgrp : reMatch (RE.grp (.star true ['\n'] false)) t =
      (List.range ((t.takeWhile (clsMem true ['\n'])).length + 1)).map
        (fun k => ((t.drop k,
          some (t.take (t.length - (t.drop k).length))) : Str × Option Str)) := by
    show (reMatch (RE.star true ['\n'] false) t).map
        (fun p => (p.1, some (t.take (t.length - p.1.length)))) = _
    rw [hstar, List.map_map]
    rfl
  rw [hgrp] at h
  obtain ⟨l1, p, l2, hsplit, hempty, tl2, hFp⟩ := catMap_head_split _ _ y tl h
  obtain ⟨k, hk, hp, hl1⟩ := map_range_decomp l1 _ _ p l2 hsplit
  have hrun : (t.takeWhile (clsMem true ['\n'])).length ≤ t.length :=
    takeWhile_length_le_self _ t
  refine ⟨k, by omega, ?_, ?_⟩
  · intro j hj
    have hmem : ((t.drop j, some (t.take (t.length - (t.drop j).length))) : Str × Option Str)
        ∈ l1 := by
      rw [hl1]
      simp only [List.mem_map, List.mem_range]
      exact ⟨j, hj, rfl⟩
    have hFj := hempty _ hmem
    have hFj2 : (reMatch yieldTailRE (t.drop j)).map
        (fun q => ((q.1, (some (t.take (t.length - (t.drop j).length))).orElse
          (fun _ => q.2)) : Str × Option Str)) = [] := hFj
    cases hlj : reMatch yieldTailRE (t.drop j) with
    | nil => rfl
    | cons z zs =>
      rw [hlj] at hFj2
      simp at hFj2
  · have hFp2 : (reMatch yieldTailRE (t.drop k)).map
        (fun q => ((q.1, (some (t.take (t.length - (t.drop k).length))).orElse
          (fun _ => q.2)) : Str × Option Str)) = y :: tl2 := by
      rw [hp] at hFp
      exact hFp
    obtain ⟨z, zs, hzz, hy, _⟩ := map_head_inv _ _ y tl2 hFp2
    have hlen : t.length - (t.drop k).length = k := by
      rw [List.length_drop]
      omega
    refine ⟨z, zs, hzz, ?_⟩
    rw [hy, hlen]
    rfl

def allSpace (u : Str) : Prop := ∀ c ∈ u, clsMem false spaceChars c = true

def optDash (u : Str) : Prop := u = str "-" ∨ u = []

def noNL (u : Str) : Prop := ∀ c ∈ u, clsMem true ['\n'] c = true

theorem yield_head_shape (t rest : Str) (g : Option Str) (tl : List (Str × Option Str))
    (h : reMatch yieldRE t = (rest, g) :: tl) :
    ∃ d1 sp1 sp2 X sp3 d2,
      t = str "\x7b\x7b" ++ (d1 ++ (sp1 ++ (str "yield" ++ (sp2 ++ (X ++ (sp3 ++ (d2 ++
          (str "\x7d\x7d" ++ rest)))))))) ∧
      g = some X ∧ optDash d1 ∧ allSpace sp1 ∧ allSpace sp2 ∧ noNL X ∧
      allSpace sp3 ∧ optDash d2 ∧
      (∀ x1 x2, X ≠ (x1 ++ str "\x7d\x7d") ++ x2) ∧
      (∀ x1, X = x1 ++ ['\x7d'] → sp3 ++ d2 ≠ []) := by
  rw [yieldRE_decomp] at h
  obtain ⟨q1, hq1, y1, tl1, hB1, hx1⟩ := seq_head _ _ _ _ _ h
  obtain ⟨hs1, hg1⟩ := reMatch_lit_mem _ _ _ hq1
  obtain ⟨q2, hq2, y2, tl2, hB2, hx2⟩ := seq_head _ _ _ _ _ hB1
  obtain ⟨⟨d1, hd1, hs2⟩, hg2⟩ := reMatch_optlit_mem _ _ _ _ hq2
  obtain ⟨q3, hq3, y3, tl3, hB3, hx3⟩ := seq_head _ _ _ _ _ hB2
  obtain ⟨k1, hs3, hg3, hall1⟩ := reMatch_star_mem _ _ _ _ _ hq3
  obtain ⟨q4, hq4, y4, tl4, hB4, hx4⟩ := seq_head _ _ _ _ _ hB3
  obtain ⟨hs4, hg4⟩ := reMatch_lit_mem _ _ _ hq4
  obtain ⟨q5, hq5, y5, tl5, hB5, hx5⟩ := seq_head _ _ _ _ _ hB4
  obtain ⟨k2, hs5, hg5, hall2⟩ := reMatch_star_mem _ _ _ _ _ hq5
  obtain ⟨k, hkrun, hmin, z, tlz, hz, hy5⟩ := yieldGrp_head _ _ _ hB5
  rw [show yieldTailRE = .seq (.star false spaceChars true)
      (.seq (.opt (lit (str "-")) true) (lit (str "\x7d\x7d"))) from rfl] at hz
  obtain ⟨q6, hq6, y6, tl6, hB6, hx6⟩ := seq_head _ _ _ _ _ hz
  obtain ⟨k3, hs6, hg6, hall3⟩ := reMatch_star_mem _ _ _ _ _ hq6
  obtain ⟨q7, hq7, y7, tl7, hB7, hx7⟩ := seq_head _ _ _ _ _ hB6
  obtain ⟨⟨d2, hd2, hs7⟩, hg7⟩ := reMatch_optlit_mem _ _ _ _ hq7
  have hy7m : y7 ∈ reMatch (lit (str "\x7d\x7d")) q7.1 := by
    rw [hB7]
    exact List.mem_cons_self _ _
  obtain ⟨hs8, hg8⟩ := reMatch_lit_mem _ _ _ hy7m
  injection hx1 with hr1 hgg1
  rw [hg1] at hgg1
  have h12 : y1.1 = y2.1 := by rw [hx2]
  have h12g : y1.2 = y2.2 := by rw [hx2, hg2]; rfl
  have h23 : y2.1 = y3.1 := by rw [hx3]
  have h23g : y2.2 = y3.2 := by rw [hx3, hg3]; rfl
  have h34 : y3.1 = y4.1 := by rw [hx4]
  have h34g : y3.2 = y4.2 := by rw [hx4, hg4]; rfl
  have h45 : y4.1 = y5.1 := by rw [hx5]
  have h45g : y4.2 = y5.2 := by rw [hx5, hg5]; rfl
  have h5z : y5.1 = z.1 := by rw [hy5]
  have h5g : y5.2 = some (q5.1.take k) := by rw [hy5]
  have hz6 : z.1 = y6.1 := by rw [hx6]
  have h67 : y6.1 = y7.1 := by rw [hx7]
  have hgg1b : g = y1.2 := hgg1
  have hgX : g = some (q5.1.take k) := by
    rw [hgg1b, h12g, h23g, h34g, h45g, h5g]
  have hy7rest : y7.1 = rest := by
    rw [hr1, h12, h23, h34, h45, h5z, hz6, h67]
  have hq5run : (q5.1.takeWhile (clsMem true ['\n'])).length ≤ q5.1.length :=
    takeWhile_length_le_self _ _
  have hq5split : q5.1 = q5.1.take k ++ q5.1.drop k := (List.take_append_drop k q5.1).symm
  have hXlen : (q5.1.take k).length = k := by
    rw [List.length_take]
    omega
  have hXnl : ∀ c ∈ q5.1.take k, clsMem true ['\n'] c = true := by
    intro c hc
    exact all_of_mem_take_takeWhile _ _ _ hkrun c hc
  have hK2a : ∀ x1 x2, q5.1.take k ≠ (x1 ++ str "\x7d\x7d") ++ x2 := by
    intro x1 x2 hXeq
    have hj : x1.length < k := by
      have hl := congrArg List.length hXeq
      rw [hXlen] at hl
      simp only [List.length_append] at hl
      have h2 : (str "\x7d\x7d").length = 2 := rfl
      omega
    have hdropj : q5.1.drop x1.length = str "\x7d\x7d" ++ (x2 ++ q5.1.drop k) := by
      have hq5e : q5.1 = x1 ++ (str "\x7d\x7d" ++ (x2 ++ q5.1.drop k)) := by
        conv_lhs => rw [hq5split, hXeq]
        simp [List.append_assoc]
      conv_lhs => rw [hq5e]
      rw [List.drop_left]
    have hne := yieldTail_close_matches (x2 ++ q5.1.drop k)
    rw [← hdropj] at hne
    exact hne (hmin x1.length hj)
  have hK2b : ∀ x1, q5.1.take k = x1 ++ ['\x7d'] →
      (q5.1.drop k).take k3 ++ d2 ≠ [] := by
    intro x1 hXeq hnil
    have hsp3nil : (q5.1.drop k).take k3 = [] := (List.append_eq_nil.mp hnil).1
    have hd2nil : d2 = [] := (List.append_eq_nil.mp hnil).2
    have hU2 : q5.1.drop k = str "\x7d\x7d" ++ y7.1 := by
      rw [hs6, hsp3nil, List.nil_append, hs7, hd2nil, List.nil_append, hs8]
    have hj : x1.length < k := by
      have hl := congrArg List.length hXeq
      rw [hXlen] at hl
      simp only [List.length_append, List.length_cons, List.length_nil] at hl
      omega
    have hdropj : q5.1.drop x1.length = str "\x7d\x7d" ++ ('\x7d' :: y7.1) := by
      have hq5e : q5.1 = x1 ++ ('\x7d' :: (str "\x7d\x7d" ++ y7.1)) := by
        conv_lhs => rw [hq5split, hXeq, hU2]
        simp [List.append_assoc]
      conv_lhs => rw [hq5e]
      rw [List.drop_left]
      rfl
    have hne := yieldTail_close_matches ('\x7d' :: y7.1)
    rw [← hdropj] at hne
    exact hne (hmin x1.length hj)
  have hudec : q5.1.drop k = (q5.1.drop k).take k3 ++ (d2 ++ (str "\x7d\x7d" ++ rest)) := by
    conv_lhs => rw [hs6, hs7, hs8, hy7rest]
  refine ⟨d1, q2.1.take k1, q4.1.take k2, q5.1.take k, (q5.1.drop k).take k3, d2,
    ?_, hgX, hd1, hall1, hall2, hXnl, hall3, hd2, hK2a, hK2b⟩
  conv_lhs => rw [hs1, hs2, hs3, hs4, hs5, hq5split, hudec]

/-! Unfold equations for replaceYieldWithTemplateContent. -/

def yieldRepl (g : Option Str) : Str :=
  str "\x7b\x7b template \"content\" " ++ g.getD [] ++ str " \x7d\x7d"

theorem replaceYield_as_repl (s : Str) :
    replaceYieldWithTemplateContent s = reReplaceAll yieldRE yieldRepl s := rfl

theorem yield_match_consumes (s : Str) (p : Str × Option Str)
    (hp : p ∈ reMatch yieldRE s) : p.1.length < s.length := by
  rw [show yieldRE = .seq (lit ('\x7b' :: str "\x7b"))
     (.seq (.opt (lit (str "-")) true)
      (.seq (.star false spaceChars true)
       (.seq (lit (str "yield"))
        (.seq (.star false spaceChars true)
         (.seq (.grp (.star true ['\n'] false))
          (.seq (.star false spaceChars true)
           (.seq (.opt (lit (str "-")) true) (lit (str "\x7d\x7d"))))))))) from rfl] at hp
  exact reMatch_consume_lit_cons '\x7b' (str "\x7b") _ s p hp

theorem reFind_yield_matched_ne : ∀ (s b m : Str) (g : Option Str) (a : Str),
    reFind yieldRE s = some (b, m, g, a) → m ≠ [] := by
  intro s
  induction s with
  | nil =>
    intro b m g a hf
    have hnone : reFind yieldRE ([] : Str) = none := rfl
    rw [hnone] at hf
    cases hf
  | cons c cs ih =>
    intro b m g a hf
    cases hm : reMatch yieldRE (c :: cs) with
    | cons hd tl =>
      obtain ⟨rest, g'⟩ := hd
      simp only [reFind, hm] at hf
      simp only [Option.some.injEq, Prod.mk.injEq] at hf
      obtain ⟨rfl, rfl, rfl, rfl⟩ := hf
      have hmem : ((rest, g') : Str × Option Str) ∈ reMatch yieldRE (c :: cs) := by
        rw [hm]
        exact List.mem_cons_self _ _
      have hlt := yield_match_consumes _ _ hmem
      have hlt2 : rest.length < (c :: cs).length := hlt
      intro hemp
      have hn : 0 < (c :: cs).length - rest.length := by omega
      cases hnn : (c :: cs).length - rest.length with
      | zero => omega
      | succ k =>
        rw [hnn] at hemp
        simp at hemp
    | nil =>
      simp only [reFind, hm] at hf
      cases hrec : reFind yieldRE cs with
      | none =>
        rw [hrec] at hf
        cases hf
      | some x =>
        rw [hrec] at hf
        obtain ⟨b1, m1, g1, a1⟩ := x
        simp only [Option.map_some', Option.some.injEq, Prod.mk.injEq] at hf
        obtain ⟨rfl, rfl, rfl, rfl⟩ := hf
        exact ih b1 m1 g1 a1 hrec

theorem replaceYieldFuel_inv : ∀ (n f : Nat) (s : Str), s.length < f → s.length ≤ n →
    reReplaceAllFuel yieldRE yieldRepl f s = reReplaceAll yieldRE yieldRepl s := by
  intro n
  induction n with
  | zero =>
    intro f s hf hn
    have hs : s = [] := List.eq_nil_of_length_eq_zero (Nat.le_zero.mp hn)
    subst hs
    cases f with
    | zero => omega
    | succ f2 =>
      have hnone : reFind yieldRE ([] : Str) = none := rfl
      simp [reReplaceAllFuel, hnone, reReplaceAll]
  | succ n ih =>
    intro f s hf hn
    cases f with
    | zero => omega
    | succ f2 =>
      cases hfind : reFind yieldRE s with
      | none =>
        simp [reReplaceAllFuel, hfind, reReplaceAll]
      | some x =>
        obtain ⟨b, m, g, a⟩ := x
        have hmne : m ≠ [] := reFind_yield_matched_ne s b m g a hfind
        have hdecomp := reFind_decomp yieldRE s b m g a hfind
        have hlen : s.length = b.length + m.length + a.length := by
          rw [hdecomp]
          simp [List.length_append]
          omega
        have hmpos : 0 < m.length := List.length_pos.mpr hmne
        rw [reReplaceAll]
        simp only [reReplaceAllFuel, hfind, if_neg hmne]
        rw [ih f2 a (by omega) (by omega), ih s.length a (by omega) (by omega)]

theorem replaceYield_none (s : Str) (hf : reFind yieldRE s = none) :
    replaceYieldWithTemplateContent s = s := by
  rw [replaceYield_as_repl]
  simp [reReplaceAll, reReplaceAllFuel, hf]

theorem replaceYield_step (s b m : Str) (g : Option Str) (a : Str)
    (hf : reFind yieldRE s = some (b, m, g, a)) :
    replaceYieldWithTemplateContent s =
      b ++ (yieldRepl g ++ replaceYieldWithTemplateContent a) := by
  have hmne : m ≠ [] := reFind_yield_matched_ne s b m g a hf
  have hdecomp := reFind_decomp yieldRE s b m g a hf
  have hlen : s.length = b.length + m.length + a.length := by
    rw [hdecomp]
    simp [List.length_append]
    omega
  have hmpos : 0 < m.length := List.length_pos.mpr hmne
  rw [replaceYield_as_repl, replaceYield_as_repl, reReplaceAll]
  simp only [reReplaceAllFuel, hf, if_neg hmne]
  rw [replaceYieldFuel_inv s.length s.length a (by omega) (by omega)]
  simp [List.append_assoc]

/-! Characterization of the strings the layout pattern can match. -/

def noBrace (u : Str) : Prop := ∀ c ∈ u, c ≠ '\x7d'

def noOpen (u : Str) : Prop := ∀ c ∈ u, c ≠ '\x7b'

def keyShape (pre : Str) : Prop :=
  ∃ d sp, optDash d ∧ allSpace sp ∧
    (pre = d ++ (sp ++ str "yield") ∨
     ∃ sp2, allSpace sp2 ∧ pre = d ++ (sp ++ (str "template" ++ (sp2 ++ str "\"content\""))))

def layEv (m : Str) : Prop :=
  ∃ pre nb, m = str "\x7b\x7b" ++ (pre ++ (nb ++ str "\x7d\x7d")) ∧ keyShape pre ∧ noBrace nb

def hasLayEv (s : Str) : Prop := ∃ u mm v, s = u ++ mm ++ v ∧ layEv mm

theorem clsMem_rb (c : Char) : clsMem true ['\x7d'] c = true ↔ c ≠ '\x7d' := by
  simp [clsMem, chMem]

theorem space_ne (c : Char) (h : clsMem false spaceChars c = true) :
    c ≠ '\x7d' ∧ c ≠ '\x7b' ∧ c ≠ 'd' ∧ c ≠ '\"' := by
  simp only [clsMem, spaceChars, chMem, if_false] at h
  have hcases : c = ' ' ∨ c = '\t' ∨ c = '\n' ∨ c = '\x0c' ∨ c = '\r' := by
    by_cases h1 : c = ' '
    · exact Or.inl h1
    · rw [if_neg h1] at h
      by_cases h2 : c = '\t'
      · exact Or.inr (Or.inl h2)
      · rw [if_neg h2] at h
        by_cases h3 : c = '\n'
        · exact Or.inr (Or.inr (Or.inl h3))
        · rw [if_neg h3] at h
          by_cases h4 : c = '\x0c'
          · exact Or.inr (Or.inr (Or.inr (Or.inl h4)))
          · rw [if_neg h4] at h
            by_cases h5 : c = '\r'
            · exact Or.inr (Or.inr (Or.inr (Or.inr h5)))
            · rw [if_neg h5] at h
              cases h
  rcases hcases with rfl | rfl | rfl | rfl | rfl <;>
    exact ⟨by decide, by decide, by decide, by decide⟩

theorem allSpace_noBrace (u : Str) (h : allSpace u) : noBrace u :=
  fun c hc => (space_ne c (h c hc)).1

theorem allSpace_noOpen (u : Str) (h : allSpace u) : noOpen u :=
  fun c hc => (space_ne c (h c hc)).2.1

theorem optDash_noBrace (u : Str) (h : optDash u) : noBrace u := by
  rcases h with rfl | rfl
  · intro c hc
    have hs : str "-" = ['-'] := rfl
    rw [hs] at hc
    simp only [List.mem_singleton] at hc
    subst hc
    decide
  · intro c hc
    simp at hc

theorem optDash_noOpen (u : Str) (h : optDash u) : noOpen u := by
  rcases h with rfl | rfl
  · intro c hc
    have hs : str "-" = ['-'] := rfl
    rw [hs] at hc
    simp only [List.mem_singleton] at hc
    subst hc
    decide
  · intro c hc
    simp at hc

theorem noBrace_append (u v : Str) (hu : noBrace u) (hv : noBrace v) : noBrace (u ++ v) := by
  intro c hc
  rcases List.mem_append.mp hc with h | h
  · exact hu c h
  · exact hv c h

theorem noOpen_append (u v : Str) (hu : noOpen u) (hv : noOpen v) : noOpen (u ++ v) := by
  intro c hc
  rcases List.mem_append.mp hc with h | h
  · exact hu c h
  · exact hv c h

theorem Lang_seq_iff (a b : RE) (s : Str) :
    Lang (.seq a b) s ↔ ∃ u v, s = u ++ v ∧ Lang a u ∧ Lang b v := Iff.rfl

theorem Lang_alt_iff (a b : RE) (s : Str) : Lang (.alt a b) s ↔ Lang a s ∨ Lang b s := Iff.rfl

theorem Lang_star_iff (neg : Bool) (cs : List Char) (gr : Bool) (s : Str) :
    Lang (.star neg cs gr) s ↔ ∀ c ∈ s, clsMem neg cs c = true := Iff.rfl

theorem Lang_opt_iff (a : RE) (gr : Bool) (s : Str) :
    Lang (.opt a gr) s ↔ s = [] ∨ Lang a s := Iff.rfl

theorem Lang_grp_iff (a : RE) (s : Str) : Lang (.grp a) s ↔ Lang a s := Iff.rfl

theorem Lang_seq_intro (a b : RE) (u v s : Str) (hs : s = u ++ v)
    (hu : Lang a u) (hv : Lang b v) : Lang (.seq a b) s := ⟨u, v, hs, hu, hv⟩

theorem Lang_optdash (d : Str) (h : optDash d) : Lang (.opt (lit (str "-")) true) d := by
  rcases h with rfl | rfl
  · exact Or.inr ((Lang_lit _ _).mpr rfl)
  · exact Or.inl rfl

theorem Lang_space (sp : Str) (h : allSpace sp) : Lang (.star false spaceChars true) sp := h

theorem Lang_nil_star (neg : Bool) (cs : List Char) (gr : Bool) :
    Lang (.star neg cs gr) [] := fun c hc => absurd hc (List.not_mem_nil c)

theorem Lang_nobrace (nb : Str) (h : noBrace nb) : Lang (.star true ['\x7d'] true) nb :=
  fun c hc => (clsMem_rb c).mpr (h c hc)

theorem layoutRE_decomp : layoutRE = RE.seq (lit (str "\x7b\x7b"))
    (.seq (.opt (lit (str "-")) true)
     (.seq (.star false spaceChars true)
      (.seq (.grp (.alt
         (.seq (lit (str "template"))
          (.seq (.star false spaceChars true)
           (.seq (lit (str "\"content\""))
            (.seq (.star false spaceChars true) (.star true ['\x7d'] true)))))
         (.seq (lit (str "yield"))
          (.seq (.star false spaceChars true) (.star true ['\x7d'] true)))))
       (.seq (.star false spaceChars true)
        (.seq (.opt (lit (str "-")) true) (lit (str "\x7d\x7d"))))))) := rfl

theorem lang_layout_iff (m : Str) : Lang layoutRE m ↔ layEv m := by
  constructor
  · intro h
    rw [layoutRE_decomp, Lang_seq_iff] at h
    obtain ⟨w0, r1, rfl, hw0, h⟩ := h
    rw [Lang_lit] at hw0
    subst hw0
    rw [Lang_seq_iff] at h
    obtain ⟨d1, r2, rfl, hd1, h⟩ := h
    rw [Lang_opt_iff, Lang_lit] at hd1
    rw [Lang_seq_iff] at h
    obtain ⟨sp1, r3, rfl, hsp1, h⟩ := h
    rw [Lang_star_iff] at hsp1
    rw [Lang_seq_iff] at h
    obtain ⟨body, r4, rfl, hbody, h⟩ := h
    rw [Lang_grp_iff, Lang_alt_iff] at hbody
    rw [Lang_seq_iff] at h
    obtain ⟨sp4, r5, rfl, hsp4, h⟩ := h
    rw [Lang_star_iff] at hsp4
    rw [Lang_seq_iff] at h
    obtain ⟨d2, r6, rfl, hd2, hclose⟩ := h
    rw [Lang_opt_iff, Lang_lit] at hd2
    rw [Lang_lit] at hclose
    subst hclose
    have hod1 : optDash d1 := hd1.symm
    have hod2 : optDash d2 := hd2.symm
    rcases hbody with htpl | hyld
    · rw [Lang_seq_iff] at htpl
      obtain ⟨t0, b1, rfl, ht0, htpl⟩ := htpl
      rw [Lang_lit] at ht0
      subst ht0
      rw [Lang_seq_iff] at htpl
      obtain ⟨spA, b2, rfl, hspA, htpl⟩ := htpl
      rw [Lang_star_iff] at hspA
      rw [Lang_seq_iff] at htpl
      obtain ⟨c0, b3, rfl, hc0, htpl⟩ := htpl
      rw [Lang_lit] at hc0
      subst hc0
      rw [Lang_seq_iff] at htpl
      obtain ⟨spB, nb0, rfl, hspB, hnb0⟩ := htpl
      rw [Lang_star_iff] at hspB
      rw [Lang_star_iff] at hnb0
      refine ⟨d1 ++ (sp1 ++ (str "template" ++ (spA ++ str "\"content\""))),
        spB ++ (nb0 ++ (sp4 ++ d2)), by simp [List.append_assoc], ?_, ?_⟩
      · exact ⟨d1, sp1, hod1, hsp1, Or.inr ⟨spA, hspA, rfl⟩⟩
      · refine noBrace_append _ _ (allSpace_noBrace _ hspB) (noBrace_append _ _ ?_
          (noBrace_append _ _ (allSpace_noBrace _ hsp4) (optDash_noBrace _ hod2)))
        intro c hc
        exact (clsMem_rb c).mp (hnb0 c hc)
    · rw [Lang_seq_iff] at hyld
      obtain ⟨t0, b1, rfl, ht0, hyld⟩ := hyld
      rw [Lang_lit] at ht0
      subst ht0
      rw [Lang_seq_iff] at hyld
      obtain ⟨spC, nb0, rfl, hspC, hnb0⟩ := hyld
      rw [Lang_star_iff] at hspC
      rw [Lang_star_iff] at hnb0
      refine ⟨d1 ++ (sp1 ++ str "yield"),
        spC ++ (nb0 ++ (sp4 ++ d2)), by simp [List.append_assoc], ?_, ?_⟩
      · exact ⟨d1, sp1, hod1, hsp1, Or.inl rfl⟩
      · refine noBrace_append _ _ (allSpace_noBrace _ hspC) (noBrace_append _ _ ?_
          (noBrace_append _ _ (allSpace_noBrace _ hsp4) (optDash_noBrace _ hod2)))
        intro c hc
        exact (clsMem_rb c).mp (hnb0 c hc)
  · rintro ⟨pre, nb, rfl, ⟨d, sp, hd, hsp, hkey⟩, hnb⟩
    rw [layoutRE_decomp]
    rcases hkey with hkey | ⟨sp2, hsp2, hkey⟩
    · subst hkey
      apply Lang_seq_intro _ _ (str "\x7b\x7b")
        ((d ++ (sp ++ str "yield")) ++ (nb ++ str "\x7d\x7d")) _ rfl
        ((Lang_lit _ _).mpr rfl)
      apply Lang_seq_intro _ _ d ((sp ++ str "yield") ++ (nb ++ str "\x7d\x7d"))
        _ (by simp [List.append_assoc]) (Lang_optdash d hd)
      apply Lang_seq_intro _ _ sp (str "yield" ++ (nb ++ str "\x7d\x7d"))
        _ (by simp [List.append_assoc]) (Lang_space sp hsp)
      apply Lang_seq_intro _ _ (str "yield" ++ nb) (str "\x7d\x7d")
        _ (by simp [List.append_assoc]) ?_
      · apply Lang_seq_intro _ _ [] (str "\x7d\x7d") _ rfl (Lang_nil_star _ _ _)
        apply Lang_seq_intro _ _ [] (str "\x7d\x7d") _ rfl (Lang_optdash [] (Or.inr rfl))
        exact (Lang_lit _ _).mpr rfl
      · show Lang (.alt _ _) (str "yield" ++ nb)
        refine Or.inr ?_
        apply Lang_seq_intro _ _ (str "yield") nb _ rfl ((Lang_lit _ _).mpr rfl)
        exact Lang_seq_intro _ _ [] nb _ rfl (Lang_nil_star _ _ _) (Lang_nobrace nb hnb)
    · subst hkey
      apply Lang_seq_intro _ _ (str "\x7b\x7b")
        ((d ++ (sp ++ (str "template" ++ (sp2 ++ str "\"content\"")))) ++ (nb ++ str "\x7d\x7d"))
        _ rfl ((Lang_lit _ _).mpr rfl)
      apply Lang_seq_intro _ _ d
        ((sp ++ (str "template" ++ (sp2 ++ str "\"content\""))) ++ (nb ++ str "\x7d\x7d"))
        _ (by simp [List.append_assoc]) (Lang_optdash d hd)
      apply Lang_seq_intro _ _ sp
        ((str "template" ++ (sp2 ++ str "\"content\"")) ++ (nb ++ str "\x7d\x7d"))
        _ (by simp [List.append_assoc]) (Lang_space sp hsp)
      apply Lang_seq_intro _ _ ((str "template" ++ (sp2 ++ str "\"content\"")) ++ nb)
        (str "\x7d\x7d") _ (by simp [List.append_assoc]) ?_
      · apply Lang_seq_intro _ _ [] (str "\x7d\x7d") _ rfl (Lang_nil_star _ _ _)
        apply Lang_seq_intro _ _ [] (str "\x7d\x7d") _ rfl (Lang_optdash [] (Or.inr rfl))
        exact (Lang_lit _ _).mpr rfl
      · show Lang (.alt _ _) ((str "template" ++ (sp2 ++ str "\"content\"")) ++ nb)
        refine Or.inl ?_
        apply Lang_seq_intro _ _ (str "template") ((sp2 ++ str "\"content\"") ++ nb)
          _ (by simp [List.append_assoc]) ((Lang_lit _ _).mpr rfl)
        apply Lang_seq_intro _ _ sp2 (str "\"content\"" ++ nb)
          _ (by simp [List.append_assoc]) (Lang_space sp2 hsp2)
        apply Lang_seq_intro _ _ (str "\"content\"") nb _ rfl ((Lang_lit _ _).mpr rfl)
        exact Lang_seq_intro _ _ [] nb _ rfl (Lang_nil_star _ _ _) (Lang_nobrace nb hnb)

theorem isLayout_iff_ev (s : Str) : isLayoutTemplate s = true ↔ hasLayEv s := by
  rw [show isLayoutTemplate s = reMatchString layoutRE s from rfl, reMatchString_iff_exists]
  constructor
  · rintro ⟨u, mm, v, rfl, hl⟩
    exact ⟨u, mm, v, rfl, (lang_layout_iff mm).mp hl⟩
  · rintro ⟨u, mm, v, rfl, he⟩
    exact ⟨u, mm, v, rfl, (lang_layout_iff mm).mpr he⟩

/-! Alignment of a layout match's closing marker with a span's close. -/

theorem noBrace_brace_unique : ∀ (p1 t1 p2 t2 : Str),
    p1 ++ ('\x7d' :: t1) = p2 ++ ('\x7d' :: t2) → noBrace p1 → noBrace p2 →
    p1 = p2 ∧ t1 = t2 := by
  intro p1
  induction p1 with
  | nil =>
    intro t1 p2 t2 h h1 h2
    cases p2 with
    | nil =>
      simp only [List.nil_append, List.cons.injEq] at h
      exact ⟨rfl, h.2⟩
    | cons c p2' =>
      simp only [List.nil_append, List.cons_append, List.cons.injEq] at h
      exact absurd h.1.symm (h2 c (List.mem_cons_self c p2'))
  | cons c p1' ih =>
    intro t1 p2 t2 h h1 h2
    cases p2 with
    | nil =>
      simp only [List.cons_append, List.nil_append, List.cons.injEq] at h
      exact absurd h.1 (h1 c (List.mem_cons_self c p1'))
    | cons c2 p2' =>
      simp only [List.cons_append, List.cons.injEq] at h
      obtain ⟨rfl, h'⟩ := h
      obtain ⟨he, ht⟩ := ih t1 p2' t2 h' (fun x hx => h1 x (List.mem_cons_of_mem c hx))
        (fun x hx => h2 x (List.mem_cons_of_mem c hx))
      exact ⟨by rw [he], ht⟩

theorem brace_split : ∀ (X : Str), noBrace X ∨ ∃ xA xB, X = xA ++ ('\x7d' :: xB) ∧ noBrace xA := by
  intro X
  induction X with
  | nil => exact Or.inl (fun c hc => absurd hc (List.not_mem_nil c))
  | cons c X' ih =>
    by_cases hc : c = '\x7d'
    · subst hc
      exact Or.inr ⟨[], X', rfl, fun x hx => absurd hx (List.not_mem_nil x)⟩
    · rcases ih with hnb | ⟨xA, xB, hX, hxA⟩
      · refine Or.inl ?_
        intro x hx
        rcases List.mem_cons.mp hx with rfl | hx2
        · exact hc
        · exact hnb x hx2
      · refine Or.inr ⟨c :: xA, xB, by rw [hX]; rfl, ?_⟩
        intro x hx
        rcases List.mem_cons.mp hx with rfl | hx2
        · exact hc
        · exact hxA x hx2

theorem seg_split : ∀ (A : Str) (B t3 : Str) (c : Char) (tail : Str),
    A ++ B = t3 ++ (c :: tail) → (∀ x ∈ A, x ≠ c) →
    ∃ t4, t3 = A ++ t4 ∧ B = t4 ++ (c :: tail) := by
  intro A
  induction A with
  | nil =>
    intro B t3 c tail h hA
    exact ⟨t3, rfl, h⟩
  | cons a A' ih =>
    intro B t3 c tail h hA
    cases t3 with
    | nil =>
      simp only [List.cons_append, List.nil_append, List.cons.injEq] at h
      exact absurd h.1 (hA a (List.mem_cons_self a A'))
    | cons t t3' =>
      simp only [List.cons_append, List.cons.injEq] at h
      obtain ⟨rfl, h'⟩ := h
      obtain ⟨t4, h1, h2⟩ := ih B t3' c tail h' (fun x hx => hA x (List.mem_cons_of_mem a hx))
      exact ⟨t4, by rw [h1]; rfl, h2⟩

theorem seg_split2 : ∀ (t4 : Str) (A B : Str) (c : Char) (tail : Str),
    A ++ B = t4 ++ (c :: tail) → (∀ x ∈ B, x ≠ c) →
    ∃ x2, A = t4 ++ (c :: x2) ∧ tail = x2 ++ B := by
  intro t4
  induction t4 with
  | nil =>
    intro A B c tail h hB
    cases A with
    | nil =>
      simp only [List.nil_append] at h
      subst h
      exact absurd rfl (hB c (List.mem_cons_self c tail))
    | cons a A' =>
      simp only [List.cons_append, List.nil_append, List.cons.injEq] at h
      obtain ⟨rfl, h'⟩ := h
      exact ⟨A', rfl, h'.symm⟩
  | cons t t4' ih =>
    intro A B c tail h hB
    cases A with
    | nil =>
      simp only [List.nil_append] at h
      have hcB : c ∈ B := by
        rw [h]
        exact List.mem_cons_of_mem t (List.mem_append_right t4' (List.mem_cons_self c tail))
      exact absurd rfl (hB c hcB)
    | cons a A' =>
      simp only [List.cons_append, List.cons.injEq] at h
      obtain ⟨rfl, h'⟩ := h
      obtain ⟨x2, h1, h2⟩ := ih A' B c tail h' hB
      exact ⟨x2, by rw [h1]; rfl, h2⟩

theorem append_singleton_inj (l1 : Str) (a : Char) (l2 : Str) (b : Char)
    (h : l1 ++ [a] = l2 ++ [b]) : l1 = l2 ∧ a = b := by
  have h1 := congrArg List.reverse h
  simp only [List.reverse_append, List.reverse_cons, List.reverse_nil, List.nil_append,
    List.cons_append] at h1
  injection h1 with hab hrev
  exact ⟨List.reverse_inj.mp hrev, hab⟩

theorem k2a_lift : ∀ (P X : Str), noBrace P →
    (∀ x1 x2, X ≠ (x1 ++ str "\x7d\x7d") ++ x2) →
    ∀ x1 x2, P ++ X ≠ (x1 ++ str "\x7d\x7d") ++ x2 := by
  intro P
  induction P with
  | nil =>
    intro X _ hX x1 x2 h
    exact hX x1 x2 (by simpa using h)
  | cons c P' ih =>
    intro X hP hX x1 x2 h
    cases x1 with
    | nil =>
      have h' : c :: (P' ++ X) = '\x7d' :: ('\x7d' :: x2) := h
      injection h' with hc _
      exact absurd hc (hP c (List.mem_cons_self c P'))
    | cons y x1' =>
      have h' : c :: (P' ++ X) = y :: ((x1' ++ str "\x7d\x7d") ++ x2) := h
      injection h' with hc h''
      exact ih X (fun x hx => hP x (List.mem_cons_of_mem c hx)) hX x1' x2 h''

theorem k2b_lift : ∀ (P X W : Str), noBrace P →
    (∀ x1, X = x1 ++ ['\x7d'] → W ≠ []) →
    ∀ x1, P ++ X = x1 ++ ['\x7d'] → W ≠ [] := by
  intro P
  induction P with
  | nil =>
    intro X W _ hX x1 h
    exact hX x1 (by simpa using h)
  | cons c P' ih =>
    intro X W hP hX x1 h
    cases x1 with
    | nil =>
      have h' : c :: (P' ++ X) = ['\x7d'] := h
      injection h' with hc _
      exact absurd hc (hP c (List.mem_cons_self c P'))
    | cons y x1' =>
      have h' : c :: (P' ++ X) = y :: (x1' ++ ['\x7d']) := h
      injection h' with hc h''
      exact ih X W (fun x hx => hP x (List.mem_cons_of_mem c hx)) hX x1' h''

theorem k2a_suffix (xp x3 : Str) (hX : ∀ x1 x2, (xp ++ x3) ≠ (x1 ++ str "\x7d\x7d") ++ x2) :
    ∀ x1 x2, x3 ≠ (x1 ++ str "\x7d\x7d") ++ x2 := by
  intro x1 x2 h
  apply hX (xp ++ x1) x2
  rw [h]
  simp [List.append_assoc]

theorem k2b_suffix (xp x3 W : Str) (hX : ∀ x1, (xp ++ x3) = x1 ++ ['\x7d'] → W ≠ []) :
    ∀ x1, x3 = x1 ++ ['\x7d'] → W ≠ [] := by
  intro x1 h
  apply hX (xp ++ x1)
  rw [h]
  simp [List.append_assoc]

theorem close_align (NB X W v a : Str)
    (hNB : noBrace NB)
    (hK2a : ∀ x1 x2, X ≠ (x1 ++ str "\x7d\x7d") ++ x2)
    (hK2b : ∀ x1, X = x1 ++ ['\x7d'] → W ≠ [])
    (hW : noBrace W)
    (h : NB ++ (str "\x7d\x7d" ++ v) = X ++ (W ++ (str "\x7d\x7d" ++ a))) :
    noBrace X ∧ NB = X ++ W ∧ v = a := by
  rcases brace_split X with hXnb | ⟨xA, xB, hXeq, hxA⟩
  · have hXW : noBrace (X ++ W) := noBrace_append _ _ hXnb hW
    have h' : NB ++ (str "\x7d\x7d" ++ v) = (X ++ W) ++ (str "\x7d\x7d" ++ a) := by
      rw [h]
      simp [List.append_assoc]
    obtain ⟨hNBeq, htail⟩ := noBrace_brace_unique NB ('\x7d' :: v) (X ++ W) ('\x7d' :: a)
      h' hNB hXW
    injection htail with _ hva
    exact ⟨hXnb, hNBeq, hva⟩
  · exfalso
    have h' : NB ++ (str "\x7d\x7d" ++ v) =
        xA ++ ('\x7d' :: (xB ++ (W ++ (str "\x7d\x7d" ++ a)))) := by
      rw [h, hXeq]
      simp [List.append_assoc]
    obtain ⟨hNBeq, htail⟩ := noBrace_brace_unique NB ('\x7d' :: v) xA
      (xB ++ (W ++ (str "\x7d\x7d" ++ a))) h' hNB hxA
    cases xB with
    | cons cb xB' =>
      have htail' : '\x7d' :: v = cb :: (xB' ++ (W ++ (str "\x7d\x7d" ++ a))) := htail
      injection htail' with hcb _
      apply hK2a xA xB'
      rw [hXeq, ← hcb]
      simp [List.append_assoc]
      rfl
    | nil =>
      have hWne := hK2b xA (by rw [hXeq])
      cases W with
      | nil => exact absurd rfl hWne
      | cons w W' =>
        have htail' : '\x7d' :: v = w :: (W' ++ (str "\x7d\x7d" ++ a)) := htail
        injection htail' with hw _
        exact absurd hw.symm (hW w (List.mem_cons_self w W'))

/-! Key-shape facts used to locate and rebuild layout matches. -/

instance noBrace_dec (u : Str) : Decidable (noBrace u) :=
  decidable_of_iff (∀ c ∈ u, c ≠ '\x7d') Iff.rfl

instance noOpen_dec (u : Str) : Decidable (noOpen u) :=
  decidable_of_iff (∀ c ∈ u, c ≠ '\x7b') Iff.rfl

theorem keyShape_noBrace (pre : Str) (h : keyShape pre) : noBrace pre := by
  obtain ⟨d, sp, hd, hsp, hform⟩ := h
  rcases hform with rfl | ⟨sp2, hsp2, rfl⟩
  · exact noBrace_append _ _ (optDash_noBrace _ hd)
      (noBrace_append _ _ (allSpace_noBrace _ hsp) (by decide))
  · exact noBrace_append _ _ (optDash_noBrace _ hd)
      (noBrace_append _ _ (allSpace_noBrace _ hsp)
        (noBrace_append _ _ (by decide)
          (noBrace_append _ _ (allSpace_noBrace _ hsp2) (by decide))))

theorem keyShape_noOpen (pre : Str) (h : keyShape pre) : noOpen pre := by
  obtain ⟨d, sp, hd, hsp, hform⟩ := h
  rcases hform with rfl | ⟨sp2, hsp2, rfl⟩
  · exact noOpen_append _ _ (optDash_noOpen _ hd)
      (noOpen_append _ _ (allSpace_noOpen _ hsp) (by decide))
  · exact noOpen_append _ _ (optDash_noOpen _ hd)
      (noOpen_append _ _ (allSpace_noOpen _ hsp)
        (noOpen_append _ _ (by decide)
          (noOpen_append _ _ (allSpace_noOpen _ hsp2) (by decide))))

theorem keyShape_head (pre : Str) (h : keyShape pre) :
    ∃ c pr, pre = c :: pr ∧ c ≠ '\x7b' ∧ c ≠ '\x7d' := by
  obtain ⟨d, sp, hd, hsp, hform⟩ := h
  rcases hd with rfl | rfl
  · rcases hform with rfl | ⟨sp2, hsp2, rfl⟩
    · exact ⟨'-', sp ++ str "yield", rfl, by decide, by decide⟩
    · exact ⟨'-', sp ++ (str "template" ++ (sp2 ++ str "\"content\"")), rfl,
        by decide, by decide⟩
  · cases sp with
    | cons cS sp' =>
      have hc := hsp cS (List.mem_cons_self cS sp')
      have hcc := space_ne cS hc
      rcases hform with rfl | ⟨sp2, hsp2, rfl⟩
      · exact ⟨cS, sp' ++ str "yield", rfl, hcc.2.1, hcc.1⟩
      · exact ⟨cS, sp' ++ (str "template" ++ (sp2 ++ str "\"content\"")), rfl,
          hcc.2.1, hcc.1⟩
    | nil =>
      rcases hform with rfl | ⟨sp2, hsp2, rfl⟩
      · exact ⟨'y', str "ield", rfl, by decide, by decide⟩
      · exact ⟨'t', str "emplate" ++ (sp2 ++ str "\"content\""), rfl, by decide, by decide⟩

theorem keyShape_last (pre : Str) (h : keyShape pre) :
    ∃ pr c, pre = pr ++ [c] ∧ (c = 'd' ∨ c = '\"') := by
  obtain ⟨d, sp, hd, hsp, hform⟩ := h
  rcases hform with rfl | ⟨sp2, hsp2, rfl⟩
  · refine ⟨d ++ (sp ++ str "yiel"), 'd', ?_, Or.inl rfl⟩
    rw [show str "yield" = str "yiel" ++ ['d'] from rfl]
    simp [List.append_assoc]
  · refine ⟨d ++ (sp ++ (str "template" ++ (sp2 ++ str "\"content"))), '\"', ?_, Or.inr rfl⟩
    rw [show str "\"content\"" = str "\"content" ++ ['\"'] from rfl]
    simp [List.append_assoc]

def spDash (u : Str) : Prop := ∀ c ∈ u, clsMem false spaceChars c = true ∨ c = '-'

theorem spDash_noBrace (u : Str) (h : spDash u) : noBrace u := by
  intro c hc
  rcases h c hc with hs | rfl
  · exact (space_ne c hs).1
  · decide

theorem spDash_noOpen (u : Str) (h : spDash u) : noOpen u := by
  intro c hc
  rcases h c hc with hs | rfl
  · exact (space_ne c hs).2.1
  · decide

theorem spDash_keytail (u : Str) (h : spDash u) : ∀ c ∈ u, c ≠ 'd' ∧ c ≠ '\"' := by
  intro c hc
  rcases h c hc with hs | rfl
  · exact ⟨(space_ne c hs).2.2.1, (space_ne c hs).2.2.2⟩
  · exact ⟨by decide, by decide⟩

theorem allSpace_spDash (u : Str) (h : allSpace u) : spDash u := fun c hc => Or.inl (h c hc)

theorem optDash_spDash (u : Str) (h : optDash u) : spDash u := by
  rcases h with rfl | rfl
  · intro c hc
    have hs : str "-" = ['-'] := rfl
    rw [hs] at hc
    simp only [List.mem_singleton] at hc
    subst hc
    exact Or.inr rfl
  · intro c hc
    simp at hc

theorem spDash_append (u v : Str) (hu : spDash u) (hv : spDash v) : spDash (u ++ v) := by
  intro c hc
  rcases List.mem_append.mp hc with h | h
  · exact hu c h
  · exact hv c h

theorem pre_le_split (pre nb x3 W : Str) (hkey : keyShape pre)
    (hW : ∀ c ∈ W, c ≠ 'd' ∧ c ≠ '\"')
    (h : pre ++ nb = x3 ++ W) :
    ∃ x4, x3 = pre ++ x4 ∧ nb = x4 ++ W := by
  rcases List.append_eq_append_iff.mp h with ⟨t, ht1, ht2⟩ | ⟨t, ht1, ht2⟩
  · exact ⟨t, ht1, ht2⟩
  · cases t with
    | nil =>
      have hpx : pre = x3 := by simpa using ht1
      have hWnb : W = nb := by simpa using ht2
      refine ⟨[], by rw [hpx]; simp, by rw [hWnb]; simp⟩
    | cons tc t' =>
      exfalso
      obtain ⟨pr, c, hpre, hc⟩ := keyShape_last pre hkey
      rcases List.eq_nil_or_concat (tc :: t') with hnil | ⟨t2, tl, hts⟩
      · cases hnil
      · have heq : (x3 ++ t2) ++ [tl] = pr ++ [c] := by
          rw [← hpre, ht1, hts]
          simp [List.append_assoc]
        obtain ⟨_, htlc⟩ := append_singleton_inj _ _ _ _ heq
        have htlW : tl ∈ W := by
          rw [ht2, hts]
          simp
        have hfacts := hW tl htlW
        rcases hc with rfl | rfl
        · exact hfacts.1 htlc
        · exact hfacts.2 htlc

/-! Transfer of layout evidence across a rewritten span. -/

theorem str_ob : str "\x7b\x7b" = '\x7b' :: ('\x7b' :: []) := rfl

theorem str_cb : str "\x7d\x7d" = '\x7d' :: ('\x7d' :: []) := rfl

theorem close_noOpen : ∀ x ∈ str "\x7d\x7d", x ≠ '\x7b' := by
  intro x hx
  have e : str "\x7d\x7d" = ['\x7d', '\x7d'] := rfl
  rw [e] at hx
  rcases List.mem_cons.mp hx with rfl | hx2
  · decide
  · rcases List.mem_cons.mp hx2 with rfl | hx3
    · decide
    · simp at hx3

theorem span_self_ev (P X W : Str) (hX : noBrace X) (hW : noBrace W)
    (hPk : ∃ preK nbK, P = preK ++ nbK ∧ keyShape preK ∧ noBrace nbK) :
    layEv (str "\x7b\x7b" ++ (P ++ (X ++ (W ++ str "\x7d\x7d")))) := by
  obtain ⟨preK, nbK, rfl, hkey, hnbK⟩ := hPk
  refine ⟨preK, nbK ++ (X ++ W), ?_, hkey, ?_⟩
  · simp [List.append_assoc]
  · exact noBrace_append _ _ hnbK (noBrace_append _ _ hX hW)

theorem transfer_start (P X W atail lm v : Str)
    (hPnb : noBrace P)
    (hK2a : ∀ x1 x2, X ≠ (x1 ++ str "\x7d\x7d") ++ x2)
    (hK2b : ∀ x1, X = x1 ++ ['\x7d'] → W ≠ [])
    (hWnb : noBrace W)
    (hlm : layEv lm)
    (heq : lm ++ v = (str "\x7b\x7b" ++ (P ++ (X ++ (W ++ str "\x7d\x7d")))) ++ atail) :
    noBrace X ∧ v = atail := by
  obtain ⟨pre, nb, rfl, hkey, hnb⟩ := hlm
  have h0 := heq
  simp only [str_ob, str_cb, List.append_assoc, List.cons_append, List.nil_append] at h0
  injection h0 with _ h1
  injection h1 with _ h2
  have h3 : (pre ++ nb) ++ (str "\x7d\x7d" ++ v) =
      (P ++ X) ++ (W ++ (str "\x7d\x7d" ++ atail)) := by
    simpa [List.append_assoc] using h2
  obtain ⟨hXnb, _, hv⟩ := close_align (pre ++ nb) (P ++ X) W v atail
    (noBrace_append _ _ (keyShape_noBrace pre hkey) hnb)
    (k2a_lift P X hPnb hK2a) (k2b_lift P X W hPnb hK2b) hWnb h3
  exact ⟨fun c hc => hXnb c (List.mem_append_right P hc), hv⟩

theorem transfer_inner (P X W atail t3 r lm v : Str)
    (hPo : noOpen P) (hWo : noOpen W) (hWnb : noBrace W)
    (hWkt : ∀ c ∈ W, c ≠ 'd' ∧ c ≠ '\"')
    (hK2a : ∀ x1 x2, X ≠ (x1 ++ str "\x7d\x7d") ++ x2)
    (hK2b : ∀ x1, X = x1 ++ ['\x7d'] → W ≠ [])
    (hlm : layEv lm)
    (hspan : P ++ (X ++ (W ++ str "\x7d\x7d")) = t3 ++ r)
    (hrne : r ≠ [])
    (hlmv : lm ++ v = r ++ atail) :
    ∃ t4 pre x4, X = t4 ++ ('\x7b' :: ('\x7b' :: (pre ++ x4))) ∧ t3 = P ++ t4 ∧
      keyShape pre ∧ noBrace x4 ∧ v = atail := by
  obtain ⟨pre, nb, rfl, hkey, hnb⟩ := hlm
  cases r with
  | nil => exact absurd rfl hrne
  | cons rh r' =>
  have h0 := hlmv
  simp only [str_ob, str_cb, List.append_assoc, List.cons_append, List.nil_append] at h0
  have hlmv0 : '\x7b' :: ('\x7b' :: (pre ++ (nb ++ (str "\x7d\x7d" ++ v)))) =
      rh :: (r' ++ atail) := h0
  injection hlmv0 with hrh hrest1
  subst hrh
  obtain ⟨t4, ht3, hXr⟩ := seg_split P (X ++ (W ++ str "\x7d\x7d")) t3 '\x7b' r' hspan hPo
  obtain ⟨x2, hX2, hr'⟩ := seg_split2 t4 X (W ++ str "\x7d\x7d") '\x7b' r' hXr
    (fun x hx => by
      rcases List.mem_append.mp hx with h | h
      · exact hWo x h
      · exact close_noOpen x h)
  rw [hr'] at hrest1
  cases x2 with
  | nil =>
    exfalso
    cases W with
    | nil =>
      have h1 : '\x7b' :: (pre ++ (nb ++ (str "\x7d\x7d" ++ v))) =
          '\x7d' :: ('\x7d' :: atail) := hrest1
      injection h1 with hcc _
      exact absurd hcc (by decide)
    | cons w W' =>
      have h1 : '\x7b' :: (pre ++ (nb ++ (str "\x7d\x7d" ++ v))) =
          w :: ((W' ++ str "\x7d\x7d") ++ atail) := hrest1
      injection h1 with hcc _
      exact absurd hcc.symm (hWo w (List.mem_cons_self w W'))
  | cons c2 x2' =>
    have h1 : '\x7b' :: (pre ++ (nb ++ (str "\x7d\x7d" ++ v))) =
        c2 :: ((x2' ++ (W ++ str "\x7d\x7d")) ++ atail) := hrest1
    injection h1 with hc2 hrest2
    subst hc2
    have h3 : (pre ++ nb) ++ (str "\x7d\x7d" ++ v) = x2' ++ (W ++ (str "\x7d\x7d" ++ atail)) := by
      simpa [List.append_assoc] using hrest2
    have hK2a' : ∀ y1 y2, x2' ≠ (y1 ++ str "\x7d\x7d") ++ y2 :=
      k2a_suffix (t4 ++ ('\x7b' :: ('\x7b' :: []))) x2'
        (fun y1 y2 hcon => hK2a y1 y2 (by
          rw [hX2]
          simpa [List.append_assoc] using hcon))
    have hK2b' : ∀ y1, x2' = y1 ++ ['\x7d'] → W ≠ [] :=
      k2b_suffix (t4 ++ ('\x7b' :: ('\x7b' :: []))) x2' W
        (fun y1 hcon => hK2b y1 (by
          rw [hX2]
          simpa [List.append_assoc] using hcon))
    obtain ⟨hx2nb, hpn, hv⟩ := close_align (pre ++ nb) x2' W v atail
      (noBrace_append _ _ (keyShape_noBrace pre hkey) hnb) hK2a' hK2b' hWnb h3
    obtain ⟨x4, hx24, hnb4⟩ := pre_le_split pre nb x2' W hkey hWkt hpn
    refine ⟨t4, pre, x4, ?_, ht3, hkey, ?_, hv⟩
    · rw [hX2, hx24]
    · intro c hc
      exact hx2nb c (by rw [hx24]; exact List.mem_append_right pre hc)

theorem transfer_cross (P X W atail t r v lm : Str)
    (hPnb : noBrace P) (hPo : noOpen P)
    (hWnb : noBrace W)
    (hK2a : ∀ x1 x2, X ≠ (x1 ++ str "\x7d\x7d") ++ x2)
    (hK2b : ∀ x1, X = x1 ++ ['\x7d'] → W ≠ [])
    (hlm : layEv lm)
    (htne : t ≠ [])
    (hlmt : lm = t ++ r)
    (hrne : r ≠ [])
    (heq : r ++ v = (str "\x7b\x7b" ++ (P ++ (X ++ (W ++ str "\x7d\x7d")))) ++ atail) :
    ∃ pre nb1, t = str "\x7b\x7b" ++ (pre ++ nb1) ∧ keyShape pre ∧ noBrace nb1 ∧
      noBrace X ∧ v = atail := by
  obtain ⟨pre, nb, hlmeq, hkey, hnb⟩ := hlm
  cases r with
  | nil => exact absurd rfl hrne
  | cons rh r' =>
  have h0 := heq
  simp only [str_ob, str_cb, List.append_assoc, List.cons_append, List.nil_append] at h0
  have heq0 : rh :: (r' ++ v) =
      '\x7b' :: ('\x7b' :: (P ++ (X ++ (W ++ (str "\x7d\x7d" ++ atail))))) := h0
  injection heq0 with hrh heq1
  subst hrh
  cases t with
  | nil => exact absurd rfl htne
  | cons tc t2 =>
  have hcomb : (tc :: t2) ++ ('\x7b' :: r') = str "\x7b\x7b" ++ (pre ++ (nb ++ str "\x7d\x7d")) := by
    rw [← hlmt]
    exact hlmeq
  have h0b := hcomb
  simp only [str_ob, List.cons_append, List.append_assoc, List.nil_append] at h0b
  have hcomb2 : tc :: (t2 ++ ('\x7b' :: r')) =
      '\x7b' :: ('\x7b' :: (pre ++ (nb ++ str "\x7d\x7d"))) := h0b
  injection hcomb2 with htc hcomb3
  subst htc
  cases t2 with
  | nil =>
    have hcomb4 : r' = pre ++ (nb ++ str "\x7d\x7d") := by
      have h1 : ('\x7b' : Char) :: r' = '\x7b' :: (pre ++ (nb ++ str "\x7d\x7d")) := hcomb3
      injection h1 with _ h2
    obtain ⟨hc, pr, hpre, hcb, _⟩ := keyShape_head pre hkey
    exfalso
    rw [hcomb4, hpre] at heq1
    have h1 : hc :: ((pr ++ (nb ++ str "\x7d\x7d")) ++ v) =
        '\x7b' :: (P ++ (X ++ (W ++ (str "\x7d\x7d" ++ atail)))) := by
      simpa [List.append_assoc] using heq1
    injection h1 with h2 _
    exact hcb h2
  | cons tc2 t3 =>
  have hcomb4 : tc2 :: (t3 ++ ('\x7b' :: r')) = '\x7b' :: (pre ++ (nb ++ str "\x7d\x7d")) := hcomb3
  injection hcomb4 with htc2 hcomb5
  subst htc2
  obtain ⟨t4, ht34, hs2⟩ := seg_split pre (nb ++ str "\x7d\x7d") t3 '\x7b' r' hcomb5.symm
    (keyShape_noOpen pre hkey)
  obtain ⟨nb2, hnb2, hr2⟩ := seg_split2 t4 nb (str "\x7d\x7d") '\x7b' r' hs2 close_noOpen
  rw [hr2] at heq1
  have h3 : nb2 ++ (str "\x7d\x7d" ++ v) =
      (('\x7b' :: P) ++ X) ++ (W ++ (str "\x7d\x7d" ++ atail)) := by
    simpa [List.append_assoc] using heq1
  have hPnb' : noBrace ('\x7b' :: P) := by
    intro c hc
    rcases List.mem_cons.mp hc with rfl | hc2
    · decide
    · exact hPnb c hc2
  have hnb2' : noBrace nb2 := by
    intro c hc
    exact hnb c (by rw [hnb2]; exact List.mem_append_right _ (List.mem_cons_of_mem _ hc))
  obtain ⟨hXnb', hnbeq, hv⟩ := close_align nb2 (('\x7b' :: P) ++ X) W v atail hnb2'
    (k2a_lift _ X hPnb' hK2a) (k2b_lift _ X W hPnb' hK2b) hWnb h3
  refine ⟨pre, t4, ?_, hkey, ?_, ?_, hv⟩
  · rw [ht34]
    rfl
  · intro c hc
    exact hnb c (by rw [hnb2]; exact List.mem_append_left _ hc)
  · intro c hc
    exact hXnb' c (List.mem_append_right _ hc)

/-! A rewritten span preserves the existence of layout evidence. -/

theorem span_ev_imp
    (b atail1 atail2 P1 W1 P2 W2 X : Str)
    (hP1nb : noBrace P1) (hP1o : noOpen P1) (hP1ne : P1 ≠ [])
    (hW1nb : noBrace W1) (hW1o : noOpen W1)
    (hW1kt : ∀ c ∈ W1, c ≠ 'd' ∧ c ≠ '\"')
    (hP2nb : noBrace P2) (hW2nb : noBrace W2)
    (hK2a : ∀ x1 x2, X ≠ (x1 ++ str "\x7d\x7d") ++ x2)
    (hK2b1 : ∀ x1, X = x1 ++ ['\x7d'] → W1 ≠ [])
    (hP2k : ∃ preK nbK, P2 = preK ++ nbK ∧ keyShape preK ∧ noBrace nbK)
    (htails : hasLayEv atail1 → hasLayEv atail2)
    (h : hasLayEv (b ++ ((str "\x7b\x7b" ++ (P1 ++ (X ++ (W1 ++ str "\x7d\x7d")))) ++ atail1))) :
    hasLayEv (b ++ ((str "\x7b\x7b" ++ (P2 ++ (X ++ (W2 ++ str "\x7d\x7d")))) ++ atail2)) := by
  obtain ⟨u, lm, v, hseq, hlmEv⟩ := h
  have hseq' : u ++ (lm ++ v) =
      b ++ ((str "\x7b\x7b" ++ (P1 ++ (X ++ (W1 ++ str "\x7d\x7d")))) ++ atail1) := by
    rw [hseq]
    simp [List.append_assoc]
  rcases List.append_eq_append_iff.mp hseq' with ⟨t, hbt, hrest⟩ | ⟨t', hut, hrest⟩
  · rcases List.append_eq_append_iff.mp hrest with ⟨r, htr, hvr⟩ | ⟨r, hlr, hsr⟩
    · refine ⟨u, lm, r ++ ((str "\x7b\x7b" ++ (P2 ++ (X ++ (W2 ++ str "\x7d\x7d")))) ++ atail2),
        ?_, hlmEv⟩
      rw [hbt, htr]
      simp [List.append_assoc]
    · cases r with
      | nil =>
        refine ⟨u, lm, (str "\x7b\x7b" ++ (P2 ++ (X ++ (W2 ++ str "\x7d\x7d")))) ++ atail2,
          ?_, hlmEv⟩
        have htlm : t = lm := by simpa using hlr.symm
        rw [hbt, htlm]
      | cons rc r2 =>
        cases t with
        | nil =>
          have heqE : lm ++ v =
              (str "\x7b\x7b" ++ (P1 ++ (X ++ (W1 ++ str "\x7d\x7d")))) ++ atail1 := by
            rw [hlr]
            simpa [List.append_assoc] using hsr.symm
          obtain ⟨hXnb, hv⟩ := transfer_start P1 X W1 atail1 lm v hP1nb hK2a hK2b1
            hW1nb hlmEv heqE
          refine ⟨b, str "\x7b\x7b" ++ (P2 ++ (X ++ (W2 ++ str "\x7d\x7d"))), atail2, ?_,
            span_self_ev P2 X W2 hXnb hW2nb hP2k⟩
          simp [List.append_assoc]
        | cons tc t2 =>
          have heqC : (rc :: r2) ++ v =
              (str "\x7b\x7b" ++ (P1 ++ (X ++ (W1 ++ str "\x7d\x7d")))) ++ atail1 := hsr.symm
          obtain ⟨pre, nb1, hteq, hkey, hnb1, hXnb, hv⟩ := transfer_cross P1 X W1 atail1
            (tc :: t2) (rc :: r2) v lm hP1nb hP1o hW1nb hK2a hK2b1 hlmEv (by simp) hlr
            (by simp) heqC
          refine ⟨u,
            str "\x7b\x7b" ++ (pre ++
              ((nb1 ++ ('\x7b' :: ('\x7b' :: (P2 ++ (X ++ W2))))) ++ str "\x7d\x7d")),
            atail2, ?_, ?_⟩
          · rw [hbt, hteq]
            simp [str_ob, str_cb, List.append_assoc]
          · refine ⟨pre, nb1 ++ ('\x7b' :: ('\x7b' :: (P2 ++ (X ++ W2)))), rfl, hkey, ?_⟩
            refine noBrace_append _ _ hnb1 ?_
            intro c hc
            rcases List.mem_cons.mp hc with rfl | hc2
            · decide
            · rcases List.mem_cons.mp hc2 with rfl | hc3
              · decide
              · rcases List.mem_append.mp hc3 with h | h
                · exact hP2nb c h
                · rcases List.mem_append.mp h with h2 | h2
                  · exact hXnb c h2
                  · exact hW2nb c h2
  · rcases List.append_eq_append_iff.mp hrest with ⟨w, ht'w, hwtail⟩ | ⟨r, hspr, hlmr⟩
    · have htl1 : hasLayEv atail1 := ⟨w, lm, v, by rw [hwtail]; simp [List.append_assoc], hlmEv⟩
      obtain ⟨w2, lm2, v2, h2eq, h2ev⟩ := htails htl1
      refine ⟨b ++ ((str "\x7b\x7b" ++ (P2 ++ (X ++ (W2 ++ str "\x7d\x7d")))) ++ w2), lm2, v2,
        ?_, h2ev⟩
      rw [h2eq]
      simp [List.append_assoc]
    · cases r with
      | nil =>
        have htl1 : hasLayEv atail1 := ⟨[], lm, v, by simpa using hlmr.symm, hlmEv⟩
        obtain ⟨w2, lm2, v2, h2eq, h2ev⟩ := htails htl1
        refine ⟨b ++ ((str "\x7b\x7b" ++ (P2 ++ (X ++ (W2 ++ str "\x7d\x7d")))) ++ w2), lm2, v2,
          ?_, h2ev⟩
        rw [h2eq]
        simp [List.append_assoc]
      | cons rc r2 =>
        cases t' with
        | nil =>
          have heqE : lm ++ v =
              (str "\x7b\x7b" ++ (P1 ++ (X ++ (W1 ++ str "\x7d\x7d")))) ++ atail1 := by
            rw [hlmr, hspr]
            simp
          obtain ⟨hXnb, hv⟩ := transfer_start P1 X W1 atail1 lm v hP1nb hK2a hK2b1
            hW1nb hlmEv heqE
          refine ⟨b, str "\x7b\x7b" ++ (P2 ++ (X ++ (W2 ++ str "\x7d\x7d"))), atail2, ?_,
            span_self_ev P2 X W2 hXnb hW2nb hP2k⟩
          simp [List.append_assoc]
        | cons tc t'2 =>
          have hsp0 : '\x7b' :: ('\x7b' :: (P1 ++ (X ++ (W1 ++ str "\x7d\x7d")))) =
              tc :: (t'2 ++ (rc :: r2)) := by
            have h0 := hspr
            simp only [str_ob, List.cons_append, List.append_assoc, List.nil_append] at h0
            exact h0
          injection hsp0 with htc hsp1
          cases t'2 with
          | nil =>
            obtain ⟨pre0, nb0, hlm0, hkey0, _⟩ := hlmEv
            obtain ⟨hc, pr0, hpre0, hcb0, _⟩ := keyShape_head pre0 hkey0
            exfalso
            have hr2 : rc :: r2 = '\x7b' :: (P1 ++ (X ++ (W1 ++ str "\x7d\x7d"))) := hsp1.symm
            injection hr2 with _ hr2b
            rw [hlm0] at hlmr
            have h1 : '\x7b' :: ('\x7b' :: (pre0 ++ (nb0 ++ (str "\x7d\x7d" ++ v)))) =
                rc :: (r2 ++ atail1) := by
              have h0 := hlmr
              simp only [str_ob, str_cb, List.cons_append, List.append_assoc,
                List.nil_append] at h0
              exact h0
            injection h1 with _ h2
            rw [hr2b] at h2
            cases hP1c : P1 with
            | nil => exact hP1ne hP1c
            | cons p1 P1' =>
              rw [hP1c] at h2
              have h3 : ('\x7b' : Char) :: (pre0 ++ (nb0 ++ (str "\x7d\x7d" ++ v))) =
                  p1 :: ((P1' ++ (X ++ (W1 ++ str "\x7d\x7d"))) ++ atail1) := by
                simpa [str_ob, str_cb, List.append_assoc] using h2
              injection h3 with h4 _
              exact hP1o p1 (by rw [hP1c]; exact List.mem_cons_self p1 P1') h4.symm
          | cons tc2 t3 =>
            have hsp2 : tc2 :: (t3 ++ (rc :: r2)) =
                '\x7b' :: (P1 ++ (X ++ (W1 ++ str "\x7d\x7d"))) := hsp1.symm
            injection hsp2 with htc2 hsp3
            obtain ⟨t4, pre, x4, hXdec, ht3, hkeyP, hx4nb, hv⟩ := transfer_inner P1 X W1 atail1
              t3 (rc :: r2) lm v hP1o hW1o hW1nb hW1kt hK2a hK2b1 hlmEv hsp3.symm
              (by simp) hlmr
            refine ⟨b ++ ('\x7b' :: ('\x7b' :: (P2 ++ t4))),
              str "\x7b\x7b" ++ (pre ++ ((x4 ++ W2) ++ str "\x7d\x7d")), atail2, ?_, ?_⟩
            · rw [hXdec]
              simp [str_ob, str_cb, List.append_assoc]
            · exact ⟨pre, x4 ++ W2, rfl, hkeyP, noBrace_append _ _ hx4nb hW2nb⟩

theorem span_ev_iff
    (b atail1 atail2 P1 W1 P2 W2 X : Str)
    (hP1nb : noBrace P1) (hP1o : noOpen P1) (hP1ne : P1 ≠ [])
    (hW1nb : noBrace W1) (hW1o : noOpen W1)
    (hW1kt : ∀ c ∈ W1, c ≠ 'd' ∧ c ≠ '\"')
    (hP2nb : noBrace P2) (hP2o : noOpen P2) (hP2ne : P2 ≠ [])
    (hW2nb : noBrace W2) (hW2o : noOpen W2)
    (hW2kt : ∀ c ∈ W2, c ≠ 'd' ∧ c ≠ '\"')
    (hK2a : ∀ x1 x2, X ≠ (x1 ++ str "\x7d\x7d") ++ x2)
    (hK2b1 : ∀ x1, X = x1 ++ ['\x7d'] → W1 ≠ [])
    (hK2b2 : ∀ x1, X = x1 ++ ['\x7d'] → W2 ≠ [])
    (hP1k : ∃ preK nbK, P1 = preK ++ nbK ∧ keyShape preK ∧ noBrace nbK)
    (hP2k : ∃ preK nbK, P2 = preK ++ nbK ∧ keyShape preK ∧ noBrace nbK)
    (htails : hasLayEv atail1 ↔ hasLayEv atail2) :
    (hasLayEv (b ++ ((str "\x7b\x7b" ++ (P1 ++ (X ++ (W1 ++ str "\x7d\x7d")))) ++ atail1)) ↔
     hasLayEv (b ++ ((str "\x7b\x7b" ++ (P2 ++ (X ++ (W2 ++ str "\x7d\x7d")))) ++ atail2))) :=
  ⟨fun h => span_ev_imp b atail1 atail2 P1 W1 P2 W2 X hP1nb hP1o hP1ne hW1nb hW1o hW1kt
      hP2nb hW2nb hK2a hK2b1 hP2k htails.mp h,
   fun h => span_ev_imp b atail2 atail1 P2 W2 P1 W1 X hP2nb hP2o hP2ne hW2nb hW2o hW2kt
      hP1nb hW1nb hK2a hK2b2 hP1k htails.mpr h⟩

instance allSpace_dec (u : Str) : Decidable (allSpace u) :=
  decidable_of_iff (∀ c ∈ u, clsMem false spaceChars c = true) Iff.rfl

theorem replace_pres_aux : ∀ (n : Nat) (s : Str), s.length ≤ n →
    (hasLayEv (replaceYieldWithTemplateContent s) ↔ hasLayEv s) := by
  intro n
  induction n with
  | zero =>
    intro s hn
    have hs : s = [] := List.eq_nil_of_length_eq_zero (Nat.le_zero.mp hn)
    subst hs
    rw [replaceYield_none [] rfl]
  | succ n ih =>
    intro s hn
    cases hfind : reFind yieldRE s with
    | none =>
      rw [replaceYield_none s hfind]
    | some x =>
      obtain ⟨b, mm, g, a⟩ := x
      have hmne : mm ≠ [] := reFind_yield_matched_ne s b mm g a hfind
      have hdecomp := reFind_decomp yieldRE s b mm g a hfind
      have hstep := replaceYield_step s b mm g a hfind
      obtain ⟨tl0, hmt⟩ := reFind_head_inv yieldRE s b mm g a hfind
      obtain ⟨d1, sp1, sp2, X, sp3, d2, hshape, hg, hd1, hsp1, hsp2, hXnl, hsp3, hd2,
        hK2a, hK2b⟩ := yield_head_shape (mm ++ a) a g tl0 hmt
      have hsform : s = b ++ ((str "\x7b\x7b" ++
          ((d1 ++ (sp1 ++ (str "yield" ++ sp2))) ++
            (X ++ ((sp3 ++ d2) ++ str "\x7d\x7d")))) ++ a) := by
        rw [hdecomp]
        have hma : mm ++ a = (str "\x7b\x7b" ++
            ((d1 ++ (sp1 ++ (str "yield" ++ sp2))) ++
              (X ++ ((sp3 ++ d2) ++ str "\x7d\x7d")))) ++ a := by
          rw [hshape]
          simp [List.append_assoc]
        calc b ++ mm ++ a = b ++ (mm ++ a) := by simp [List.append_assoc]
        _ = b ++ ((str "\x7b\x7b" ++
            ((d1 ++ (sp1 ++ (str "yield" ++ sp2))) ++
              (X ++ ((sp3 ++ d2) ++ str "\x7d\x7d")))) ++ a) := by rw [hma]
      have hrepl : yieldRepl g = str "\x7b\x7b" ++
          (str " template \"content\" " ++ (X ++ (str " " ++ str "\x7d\x7d"))) := by
        rw [hg]
        rw [show yieldRepl (some X) =
          str "\x7b\x7b template \"content\" " ++ X ++ str " \x7d\x7d" from rfl]
        rw [show str "\x7b\x7b template \"content\" " =
          str "\x7b\x7b" ++ str " template \"content\" " from rfl]
        rw [show str " \x7d\x7d" = str " " ++ str "\x7d\x7d" from rfl]
        simp [List.append_assoc]
      have hoform : replaceYieldWithTemplateContent s = b ++ ((str "\x7b\x7b" ++
          (str " template \"content\" " ++ (X ++ (str " " ++ str "\x7d\x7d")))) ++
            replaceYieldWithTemplateContent a) := by
        rw [hstep, hrepl]
      have hlen : s.length = b.length + (mm.length + a.length) := by
        rw [hdecomp]
        simp [List.length_append]
      have hmpos : 0 < mm.length := List.length_pos.mpr hmne
      have hihn : hasLayEv (replaceYieldWithTemplateContent a) ↔ hasLayEv a :=
        ih a (by omega)
      rw [hoform, hsform]
      refine span_ev_iff b (replaceYieldWithTemplateContent a) a
        (str " template \"content\" ") (str " ")
        (d1 ++ (sp1 ++ (str "yield" ++ sp2))) (sp3 ++ d2) X
        (by decide) (by decide) (by decide)
        (by decide) (by decide) (by decide)
        ?_ ?_ ?_ ?_ ?_ ?_
        hK2a (fun x1 _ => by decide) hK2b
        ?_ ?_ hihn
      · exact noBrace_append _ _ (optDash_noBrace _ hd1)
          (noBrace_append _ _ (allSpace_noBrace _ hsp1)
            (noBrace_append _ _ (by decide) (allSpace_noBrace _ hsp2)))
      · exact noOpen_append _ _ (optDash_noOpen _ hd1)
          (noOpen_append _ _ (allSpace_noOpen _ hsp1)
            (noOpen_append _ _ (by decide) (allSpace_noOpen _ hsp2)))
      · intro hnil
        have hl := congrArg List.length hnil
        simp only [List.length_append, List.length_nil] at hl
        rw [show (str "yield").length = 5 from rfl] at hl
        omega
      · exact spDash_noBrace _ (spDash_append _ _ (allSpace_spDash _ hsp3)
          (optDash_spDash _ hd2))
      · exact spDash_noOpen _ (spDash_append _ _ (allSpace_spDash _ hsp3)
          (optDash_spDash _ hd2))
      · exact spDash_keytail _ (spDash_append _ _ (allSpace_spDash _ hsp3)
          (optDash_spDash _ hd2))
      · refine ⟨str " template \"content\"", str " ", rfl, ?_, by decide⟩
        exact ⟨[], str " ", Or.inr rfl, by decide, Or.inr ⟨str " ", by decide, rfl⟩⟩
      · refine ⟨d1 ++ (sp1 ++ str "yield"), sp2, by simp [List.append_assoc], ?_,
          allSpace_noBrace _ hsp2⟩
        exact ⟨d1, sp1, hd1, hsp1, Or.inl rfl⟩

theorem replace_preserves_hasLayEv (s : Str) :
    hasLayEv (replaceYieldWithTemplateContent s) ↔ hasLayEv s :=
  replace_pres_aux s.length s (Nat.le_refl _)

/-! Claim C8. -/

/-- Claim C8 (confirmed): classification is invariant under the yield
rewrite.  For every string s, the Layout/Content classification of
replaceYieldWithTemplateContent s equals the classification of s, so
rewriting every yield directive into the canonical render-content
directive never turns a Layout-classified string into a Content-classified
one or vice versa, and repeated rewriting plus re-classification is
stable. -/
theorem C8_yield_rewrite_preserves_classification (s : Str) :
    isLayoutTemplate (replaceYieldWithTemplateContent s) = isLayoutTemplate s := by
  cases hb : isLayoutTemplate s with
  | true =>
    have hev : hasLayEv s := (isLayout_iff_ev s).mp hb
    have hev2 := (replace_preserves_hasLayEv s).mpr hev
    exact (isLayout_iff_ev _).mpr hev2
  | false =>
    cases hr : isLayoutTemplate (replaceYieldWithTemplateContent s) with
    | false => rfl
    | true =>
      exfalso
      have hev2 := (isLayout_iff_ev _).mp hr
      have hev := (replace_preserves_hasLayEv s).mp hev2
      have hcontra := (isLayout_iff_ev s).mpr hev
      rw [hcontra] at hb
      cases hb
